import Mathlib

/-!
Verification of the move-selection engine of the `chessbot` repository
(`src/chess_agent.py`, classes `ChessAgent` / `MoveBook` usage).

The chess rules engine (the `chess` library: board representation, legal-move
enumeration, push/pop, SAN parsing, attack queries) is an external collaborator
of the repository.  Following the repository's own architecture we model it as
an abstract *Position Oracle*: a structure of query functions together with the
stack law `pop (push b m) = b` that the library guarantees.  The search code of
`chess_agent.py` is transliterated over this oracle.

Wall-clock time is modelled by a monotone deadline: every call of
`time.time()` is an observation event, numbered by a counter `k` that is
threaded through the search exactly where the Python code reads the clock.
`timeUp N k` tells whether the `k`-th observation is already past the deadline;
`N = none` is a deadline that never fires, `N = some n` is a deadline that
fires from the `n`-th observation on.  Since the wall clock is monotone this
captures exactly the observable behaviours of the Python code (the measure-zero
boundary case `elapsed == time_limit`, where the while-loop test and the
node-entry test of the source disagree, is collapsed).

Scores are rationals (the Python floats never rely on rounding here), extended
with `⊥` and `⊤` for the `-float('inf')` / `float('inf')` sentinels.
-/

namespace Chessbot

/-- Extended scores: rationals with `-inf` (`⊥`) and `+inf` (`⊤`). -/
abbrev Score : Type := WithBot (WithTop ℚ)

/-- Embedding of a finite evaluation value into `Score`. -/
def sc (q : ℚ) : Score := ((q : WithTop ℚ) : WithBot (WithTop ℚ))

theorem bot_lt_sc (q : ℚ) : (⊥ : Score) < sc q :=
  WithBot.bot_lt_coe _

theorem sc_lt_top (q : ℚ) : sc q < (⊤ : Score) :=
  WithBot.coe_lt_coe.2 (WithTop.coe_lt_top q)

theorem sc_ne_bot (q : ℚ) : sc q ≠ (⊥ : Score) :=
  ne_of_gt (bot_lt_sc q)

theorem sc_ne_top (q : ℚ) : sc q ≠ (⊤ : Score) :=
  ne_of_lt (sc_lt_top q)

/-- The Position Oracle: the interface of the external `chess.Board` that
`ChessAgent.alpha_beta_search` and `ChessAgent.select_move` consume.
`pop_push` is the stack law of `board.push(move)` / `board.pop()`. -/
structure SearchOracle (B M : Type) where
  legalMoves : B → List M
  push : B → M → B
  pop : B → B
  isGameOver : B → Bool
  turn : B → Bool
  pop_push : ∀ b m, pop (push b m) = b

/-- Deadline test for the `k`-th clock observation: `none` never fires,
`some n` fires from observation `n` on (the wall clock is monotone). -/
def timeUp : Option Nat → Nat → Bool
  | none, _ => false
  | some n, k => decide (n ≤ k)

theorem timeUp_none (k : Nat) : timeUp none k = false := rfl

section Search

variable {B M : Type}

/-- One intermediate state of the maximizing loop of `alpha_beta_search`
(lines 116-128 of `chess_agent.py`): iterate over the remaining `moves`,
push, recurse through `child`, pop, keep the strictly best score, raise
`alpha`, and break on `alpha ≥ beta`.  The board and the clock counter are
threaded exactly as the mutable Python board and `time.time()` are. -/
def abLoopMax (O : SearchOracle B M)
    (child : B → Score → Score → Nat → (Option M × Score) × B × Nat) :
    List M → B → Score → Score → Option M → Score → Nat →
      (Option M × Score) × B × Nat
  | [], b, _, _, best, value, k => ((best, value), b, k)
  | m :: rest, b, alpha, beta, best, value, k =>
    let r := child (O.push b m) alpha beta k
    let s := r.1.2
    let b1 := O.pop r.2.1
    let k1 := r.2.2
    let value1 := if value < s then s else value
    let best1 := if value < s then some m else best
    let alpha1 := max alpha value1
    if beta ≤ alpha1 then ((best1, value1), b1, k1)
    else abLoopMax O child rest b1 alpha1 beta best1 value1 k1

/-- The minimizing loop of `alpha_beta_search` (lines 130-142): keep the
strictly least score, lower `beta`, break on `alpha ≥ beta`. -/
def abLoopMin (O : SearchOracle B M)
    (child : B → Score → Score → Nat → (Option M × Score) × B × Nat) :
    List M → B → Score → Score → Option M → Score → Nat →
      (Option M × Score) × B × Nat
  | [], b, _, _, best, value, k => ((best, value), b, k)
  | m :: rest, b, alpha, beta, best, value, k =>
    let r := child (O.push b m) alpha beta k
    let s := r.1.2
    let b1 := O.pop r.2.1
    let k1 := r.2.2
    let value1 := if s < value then s else value
    let best1 := if s < value then some m else best
    let beta1 := min beta value1
    if beta1 ≤ alpha then ((best1, value1), b1, k1)
    else abLoopMin O child rest b1 alpha beta1 best1 value1 k1

/-- `ChessAgent.alpha_beta_search` (lines 109-142).  `e` is the agent's
evaluator `self.evaluate` (called with its default `depth = 0`, as in the
source), `player` the fixed perspective argument, `N` the deadline.  The
Python termination test `depth == 0 or board.is_game_over() or
(time.time() - start_time) > time_limit` short-circuits, so the clock is
only read (and `k` only advanced) when the first two disjuncts fail. -/
def abSearch (O : SearchOracle B M) (e : B → ℚ) (player : Bool)
    (N : Option Nat) :
    Nat → B → Score → Score → Nat → (Option M × Score) × B × Nat
  | 0, b, _, _, k => ((none, sc (e b)), b, k)
  | d + 1, b, alpha, beta, k =>
    if O.isGameOver b then ((none, sc (e b)), b, k)
    else if timeUp N k then ((none, sc (e b)), b, k + 1)
    else if O.turn b = player then
      abLoopMax O (abSearch O e player N d) (O.legalMoves b) b
        alpha beta none ⊥ (k + 1)
    else
      abLoopMin O (abSearch O e player N d) (O.legalMoves b) b
        alpha beta none ⊤ (k + 1)

/-- Strict-improvement scan keeping the greatest value, modelled from the
spec: "keep the child with the strictly greatest score".  Also the exact
shape of the update `if score > value` of the source loops, without the
pruning bookkeeping. -/
def scanMax (f : M → Score) : List M → Option M → Score → Option M × Score
  | [], best, value => (best, value)
  | m :: rest, best, value =>
    if value < f m then scanMax f rest (some m) (f m)
    else scanMax f rest best value

/-- Strict-improvement scan keeping the least value (dual of `scanMax`). -/
def scanMin (f : M → Score) : List M → Option M → Score → Option M × Score
  | [], best, value => (best, value)
  | m :: rest, best, value =>
    if f m < value then scanMin f rest (some m) (f m)
    else scanMin f rest best value

/-- Modelled from the spec: an unpruned full fixed-perspective minimax over
the same game tree, with the same native move enumeration order and the same
strict-improvement tie-break, and no pruning and no deadline.  This is the
reference point of the "alpha-beta result equivalence" property. -/
def minimaxSearch (O : SearchOracle B M) (e : B → ℚ) (player : Bool) :
    Nat → B → Option M × Score
  | 0, b => (none, sc (e b))
  | d + 1, b =>
    if O.isGameOver b then (none, sc (e b))
    else if O.turn b = player then
      scanMax (fun m => (minimaxSearch O e player d (O.push b m)).2)
        (O.legalMoves b) none ⊥
    else
      scanMin (fun m => (minimaxSearch O e player d (O.push b m)).2)
        (O.legalMoves b) none ⊤

section Frame

variable {B M : Type}

theorem abLoopMax_board (O : SearchOracle B M)
    (child : B → Score → Score → Nat → (Option M × Score) × B × Nat)
    (hchild : ∀ b alpha beta k, (child b alpha beta k).2.1 = b) :
    ∀ (moves : List M) (b : B) (alpha beta : Score) (best : Option M)
      (value : Score) (k : Nat),
      (abLoopMax O child moves b alpha beta best value k).2.1 = b := by
  intro moves
  induction moves with
  | nil => intro b alpha beta best value k; rfl
  | cons m rest ih =>
    intro b alpha beta best value k
    simp only [abLoopMax, hchild, O.pop_push]
    split <;> split
    · rfl
    · exact ih b _ beta _ _ _
    · rfl
    · exact ih b _ beta _ _ _

theorem abLoopMin_board (O : SearchOracle B M)
    (child : B → Score → Score → Nat → (Option M × Score) × B × Nat)
    (hchild : ∀ b alpha beta k, (child b alpha beta k).2.1 = b) :
    ∀ (moves : List M) (b : B) (alpha beta : Score) (best : Option M)
      (value : Score) (k : Nat),
      (abLoopMin O child moves b alpha beta best value k).2.1 = b := by
  intro moves
  induction moves with
  | nil => intro b alpha beta best value k; rfl
  | cons m rest ih =>
    intro b alpha beta best value k
    simp only [abLoopMin, hchild, O.pop_push]
    split <;> split
    · rfl
    · exact ih b alpha _ _ _ _
    · rfl
    · exact ih b alpha _ _ _ _

/-- Every exit path of `alpha_beta_search` (normal return, pruning break,
depth-0 / game-over / deadline leaf) returns the board in its pre-call
state: every push is matched by a pop. -/
theorem abSearch_board (O : SearchOracle B M) (e : B → ℚ) (player : Bool)
    (N : Option Nat) :
    ∀ (d : Nat) (b : B) (alpha beta : Score) (k : Nat),
      (abSearch O e player N d b alpha beta k).2.1 = b := by
  intro d
  induction d with
  | zero => intro b alpha beta k; rfl
  | succ d ih =>
    intro b alpha beta k
    simp only [abSearch]
    split
    · rfl
    · split
      · rfl
      · split
        · exact abLoopMax_board O _ (fun b a be k => ih b a be k) _ b _ _ _ _ _
        · exact abLoopMin_board O _ (fun b a be k => ih b a be k) _ b _ _ _ _ _

theorem abLoopMax_k_le (O : SearchOracle B M)
    (child : B → Score → Score → Nat → (Option M × Score) × B × Nat)
    (hchild : ∀ b alpha beta k, k ≤ (child b alpha beta k).2.2) :
    ∀ (moves : List M) (b : B) (alpha beta : Score) (best : Option M)
      (value : Score) (k : Nat),
      k ≤ (abLoopMax O child moves b alpha beta best value k).2.2 := by
  intro moves
  induction moves with
  | nil => intro b alpha beta best value k; exact le_refl k
  | cons m rest ih =>
    intro b alpha beta best value k
    simp only [abLoopMax]
    split <;> split
    · exact hchild _ _ _ _
    · exact le_trans (hchild _ _ _ _) (ih _ _ beta _ _ _)
    · exact hchild _ _ _ _
    · exact le_trans (hchild _ _ _ _) (ih _ _ beta _ _ _)

theorem abLoopMin_k_le (O : SearchOracle B M)
    (child : B → Score → Score → Nat → (Option M × Score) × B × Nat)
    (hchild : ∀ b alpha beta k, k ≤ (child b alpha beta k).2.2) :
    ∀ (moves : List M) (b : B) (alpha beta : Score) (best : Option M)
      (value : Score) (k : Nat),
      k ≤ (abLoopMin O child moves b alpha beta best value k).2.2 := by
  intro moves
  induction moves with
  | nil => intro b alpha beta best value k; exact le_refl k
  | cons m rest ih =>
    intro b alpha beta best value k
    simp only [abLoopMin]
    split <;> split
    · exact hchild _ _ _ _
    · exact le_trans (hchild _ _ _ _) (ih _ alpha _ _ _ _)
    · exact hchild _ _ _ _
    · exact le_trans (hchild _ _ _ _) (ih _ alpha _ _ _ _)

/-- The clock-observation counter never decreases through a search call. -/
theorem abSearch_k_le (O : SearchOracle B M) (e : B → ℚ) (player : Bool)
    (N : Option Nat) :
    ∀ (d : Nat) (b : B) (alpha beta : Score) (k : Nat),
      k ≤ (abSearch O e player N d b alpha beta k).2.2 := by
  intro d
  induction d with
  | zero => intro b alpha beta k; exact le_refl k
  | succ d ih =>
    intro b alpha beta k
    simp only [abSearch]
    split
    · exact le_refl k
    · split
      · exact Nat.le_succ k
      · have hk : k + 1 ≤ k + 1 := le_refl _
        split
        · exact le_trans (Nat.le_succ k)
            (abLoopMax_k_le O _ (fun b a be k => ih b a be k) _ b _ _ _ _ _)
        · exact le_trans (Nat.le_succ k)
            (abLoopMin_k_le O _ (fun b a be k => ih b a be k) _ b _ _ _ _ _)

end Frame

section Folds

variable {B M : Type}

/-- Running maximum of `f` over a list, seeded with `v`. -/
def foldMax (f : M → Score) (l : List M) (v : Score) : Score :=
  l.foldl (fun a m => max a (f m)) v

/-- Running minimum of `f` over a list, seeded with `v`. -/
def foldMin (f : M → Score) (l : List M) (v : Score) : Score :=
  l.foldl (fun a m => min a (f m)) v

theorem foldMax_nil (f : M → Score) (v : Score) : foldMax f [] v = v := rfl

theorem foldMax_cons (f : M → Score) (m : M) (l : List M) (v : Score) :
    foldMax f (m :: l) v = foldMax f l (max v (f m)) := rfl

theorem foldMin_nil (f : M → Score) (v : Score) : foldMin f [] v = v := rfl

theorem foldMin_cons (f : M → Score) (m : M) (l : List M) (v : Score) :
    foldMin f (m :: l) v = foldMin f l (min v (f m)) := rfl

theorem foldMax_init (f : M → Score) (l : List M) (a v : Score) :
    foldMax f l (max a v) = max a (foldMax f l v) := by
  induction l generalizing v with
  | nil => rfl
  | cons m rest ih =>
    rw [foldMax_cons, foldMax_cons, max_assoc, ih]

theorem foldMin_init (f : M → Score) (l : List M) (a v : Score) :
    foldMin f l (min a v) = min a (foldMin f l v) := by
  induction l generalizing v with
  | nil => rfl
  | cons m rest ih =>
    rw [foldMin_cons, foldMin_cons, min_assoc, ih]

theorem le_foldMax (f : M → Score) (l : List M) (v : Score) :
    v ≤ foldMax f l v := by
  have h := foldMax_init f l v v
  rw [max_self] at h
  rw [h]
  exact le_max_left _ _

theorem foldMin_le (f : M → Score) (l : List M) (v : Score) :
    foldMin f l v ≤ v := by
  have h := foldMin_init f l v v
  rw [min_self] at h
  rw [h]
  exact min_le_left _ _

theorem scanMax_val (f : M → Score) :
    ∀ (l : List M) (best : Option M) (v : Score),
      (scanMax f l best v).2 = foldMax f l v := by
  intro l
  induction l with
  | nil => intro best v; rfl
  | cons m rest ih =>
    intro best v
    rw [scanMax, foldMax_cons]
    split
    · rw [ih, max_eq_right (le_of_lt (by assumption))]
    · rw [ih, max_eq_left (not_lt.1 (by assumption))]

theorem scanMin_val (f : M → Score) :
    ∀ (l : List M) (best : Option M) (v : Score),
      (scanMin f l best v).2 = foldMin f l v := by
  intro l
  induction l with
  | nil => intro best v; rfl
  | cons m rest ih =>
    intro best v
    rw [scanMin, foldMin_cons]
    split
    · rw [ih, min_eq_right (le_of_lt (by assumption))]
    · rw [ih, min_eq_left (not_lt.1 (by assumption))]

theorem scanMax_of_le (f : M → Score) :
    ∀ (l : List M) (best : Option M) (v : Score),
      (∀ m ∈ l, f m ≤ v) → scanMax f l best v = (best, v) := by
  intro l
  induction l with
  | nil => intro best v _; rfl
  | cons m rest ih =>
    intro best v h
    rw [scanMax, if_neg (not_lt.2 (h m (List.mem_cons_self m rest)))]
    exact ih best v fun x hx => h x (List.mem_cons_of_mem m hx)

theorem scanMin_of_le (f : M → Score) :
    ∀ (l : List M) (best : Option M) (v : Score),
      (∀ m ∈ l, v ≤ f m) → scanMin f l best v = (best, v) := by
  intro l
  induction l with
  | nil => intro best v _; rfl
  | cons m rest ih =>
    intro best v h
    rw [scanMin, if_neg (not_lt.2 (h m (List.mem_cons_self m rest)))]
    exact ih best v fun x hx => h x (List.mem_cons_of_mem m hx)

/-- Full characterization of the strict-improvement maximum scan: either no
element improves on the seed and the accumulator is returned unchanged, or
the scan returns the first element attaining the overall maximum (the
elements before it are strictly below it, the ones after it at most it). -/
theorem scanMax_result (f : M → Score) :
    ∀ (l : List M) (best : Option M) (v : Score),
      (scanMax f l best v = (best, v) ∧ ∀ m ∈ l, f m ≤ v) ∨
      (∃ l1 mv l2, l = l1 ++ mv :: l2 ∧
        (scanMax f l best v).1 = some mv ∧
        (scanMax f l best v).2 = f mv ∧
        v < f mv ∧
        (∀ x ∈ l1, f x < f mv) ∧ (∀ x ∈ l2, f x ≤ f mv)) := by
  intro l
  induction l with
  | nil => intro best v; exact Or.inl ⟨rfl, by simp⟩
  | cons m rest ih =>
    intro best v
    by_cases hm : v < f m
    · rcases ih (some m) (f m) with ⟨heq, hle⟩ |
        ⟨l1, mv, l2, hsplit, hfst, hsnd, hv, h1, h2⟩
      · refine Or.inr ⟨[], m, rest, by simp, ?_, ?_, hm, by simp, hle⟩
        · rw [scanMax, if_pos hm, heq]
        · rw [scanMax, if_pos hm, heq]
      · refine Or.inr ⟨m :: l1, mv, l2, by rw [hsplit]; rfl, ?_, ?_,
          lt_trans hm hv, ?_, h2⟩
        · rw [scanMax, if_pos hm]; exact hfst
        · rw [scanMax, if_pos hm]; exact hsnd
        · intro x hx
          rcases List.mem_cons.1 hx with hx | hx
          · rw [hx]; exact hv
          · exact h1 x hx
    · rcases ih best v with ⟨heq, hle⟩ |
        ⟨l1, mv, l2, hsplit, hfst, hsnd, hv, h1, h2⟩
      · refine Or.inl ⟨?_, ?_⟩
        · rw [scanMax, if_neg hm, heq]
        · intro x hx
          rcases List.mem_cons.1 hx with hx | hx
          · rw [hx]; exact not_lt.1 hm
          · exact hle x hx
      · refine Or.inr ⟨m :: l1, mv, l2, by rw [hsplit]; rfl, ?_, ?_, hv, ?_, h2⟩
        · rw [scanMax, if_neg hm]; exact hfst
        · rw [scanMax, if_neg hm]; exact hsnd
        · intro x hx
          rcases List.mem_cons.1 hx with hx | hx
          · rw [hx]; exact lt_of_le_of_lt (not_lt.1 hm) hv
          · exact h1 x hx

/-- Dual characterization for the strict-improvement minimum scan. -/
theorem scanMin_result (f : M → Score) :
    ∀ (l : List M) (best : Option M) (v : Score),
      (scanMin f l best v = (best, v) ∧ ∀ m ∈ l, v ≤ f m) ∨
      (∃ l1 mv l2, l = l1 ++ mv :: l2 ∧
        (scanMin f l best v).1 = some mv ∧
        (scanMin f l best v).2 = f mv ∧
        f mv < v ∧
        (∀ x ∈ l1, f mv < f x) ∧ (∀ x ∈ l2, f mv ≤ f x)) := by
  intro l
  induction l with
  | nil => intro best v; exact Or.inl ⟨rfl, by simp⟩
  | cons m rest ih =>
    intro best v
    by_cases hm : f m < v
    · rcases ih (some m) (f m) with ⟨heq, hle⟩ |
        ⟨l1, mv, l2, hsplit, hfst, hsnd, hv, h1, h2⟩
      · refine Or.inr ⟨[], m, rest, by simp, ?_, ?_, hm, by simp, hle⟩
        · rw [scanMin, if_pos hm, heq]
        · rw [scanMin, if_pos hm, heq]
      · refine Or.inr ⟨m :: l1, mv, l2, by rw [hsplit]; rfl, ?_, ?_,
          lt_trans hv hm, ?_, h2⟩
        · rw [scanMin, if_pos hm]; exact hfst
        · rw [scanMin, if_pos hm]; exact hsnd
        · intro x hx
          rcases List.mem_cons.1 hx with hx | hx
          · rw [hx]; exact hv
          · exact h1 x hx
    · rcases ih best v with ⟨heq, hle⟩ |
        ⟨l1, mv, l2, hsplit, hfst, hsnd, hv, h1, h2⟩
      · refine Or.inl ⟨?_, ?_⟩
        · rw [scanMin, if_neg hm, heq]
        · intro x hx
          rcases List.mem_cons.1 hx with hx | hx
          · rw [hx]; exact not_lt.1 hm
          · exact hle x hx
      · refine Or.inr ⟨m :: l1, mv, l2, by rw [hsplit]; rfl, ?_, ?_, hv, ?_, h2⟩
        · rw [scanMin, if_neg hm]; exact hfst
        · rw [scanMin, if_neg hm]; exact hsnd
        · intro x hx
          rcases List.mem_cons.1 hx with hx | hx
          · rw [hx]; exact lt_of_lt_of_le hv (not_lt.1 hm)
          · exact h1 x hx

end Folds

section Equivalence

variable {B M : Type}

theorem iteMax (a b : Score) : (if a < b then b else a) = max a b := by
  by_cases h : a < b
  · rw [if_pos h, max_eq_right h.le]
  · rw [if_neg h, max_eq_left (not_lt.1 h)]

theorem iteMin (a b : Score) : (if b < a then b else a) = min a b := by
  by_cases h : b < a
  · rw [if_pos h, min_eq_right h.le]
  · rw [if_neg h, min_eq_left (not_lt.1 h)]

theorem foldMax_bot (f : M → Score) (rest : List M) (v : Score) :
    foldMax f rest v = max v (foldMax f rest ⊥) := by
  conv_lhs => rw [show v = max v ⊥ from (max_eq_left bot_le).symm]
  exact foldMax_init f rest v ⊥

theorem foldMin_top (f : M → Score) (rest : List M) (v : Score) :
    foldMin f rest v = min v (foldMin f rest ⊤) := by
  conv_lhs => rw [show v = min v ⊤ from (min_eq_left le_top).symm]
  exact foldMin_init f rest v ⊤

/-- Lattice bridge for the maximizing loop: two child scores that agree
within the window `(max alpha value, beta)` produce the same clamped value
of the remaining running maximum. -/
theorem squeeze_bridge_max (f : M → Score) (rest : List M)
    (alpha beta value r tc : Score) (hvb : value < beta)
    (h : max (max alpha value) (min beta r) =
      max (max alpha value) (min beta tc)) :
    max alpha (min beta (foldMax f rest (max value r))) =
      max alpha (min beta (foldMax f rest (max value tc))) := by
  have key : ∀ X : Score,
      max alpha (min beta (foldMax f rest (max value X))) =
      max (max (max alpha value) (min beta X)) (min beta (foldMax f rest ⊥)) := by
    intro X
    rw [foldMax_bot, min_max_distrib_left, min_max_distrib_left,
      min_eq_right (le_of_lt hvb), ← max_assoc, ← max_assoc]
  rw [key r, key tc, h]

/-- Lattice bridge for the minimizing loop. -/
theorem squeeze_bridge_min (f : M → Score) (rest : List M)
    (alpha beta value r tc : Score)
    (h : max alpha (min (min beta value) r) =
      max alpha (min (min beta value) tc)) :
    max alpha (min beta (foldMin f rest (min value r))) =
      max alpha (min beta (foldMin f rest (min value tc))) := by
  have key : ∀ X : Score,
      max alpha (min beta (foldMin f rest (min value X))) =
      min (max alpha (min (min beta value) X)) (max alpha (foldMin f rest ⊤)) := by
    intro X
    rw [foldMin_top, ← min_assoc, ← min_assoc, max_min_distrib_left]
  rw [key r, key tc, h]

/-- Window (squeeze) invariant of the maximizing loop: with the running
`alpha` equal to `max alpha value`, the value produced by the pruning loop
agrees with the unpruned running maximum after clamping into the window. -/
theorem abLoopMax_squeeze (O : SearchOracle B M) (e : B → ℚ) (player : Bool)
    (d : Nat)
    (ihd : ∀ (b : B) (alpha beta : Score) (k : Nat), alpha < beta →
      max alpha (min beta ((abSearch O e player none d b alpha beta k).1.2)) =
      max alpha (min beta ((minimaxSearch O e player d b).2))) :
    ∀ (moves : List M) (b : B) (alpha beta : Score) (best : Option M)
      (value : Score) (k : Nat), alpha < beta → value < beta →
      max alpha (min beta
        ((abLoopMax O (abSearch O e player none d) moves b (max alpha value)
          beta best value k).1.2)) =
      max alpha (min beta
        (foldMax (fun m => (minimaxSearch O e player d (O.push b m)).2)
          moves value)) := by
  intro moves
  induction moves with
  | nil => intro b alpha beta best value k _ _; rfl
  | cons m rest ihl =>
    intro b alpha beta best value k hab hvb
    have hab1 : max alpha value < beta := max_lt hab hvb
    have hchild :
        max (max alpha value) (min beta
          ((abSearch O e player none d (O.push b m) (max alpha value) beta
            k).1.2)) =
        max (max alpha value) (min beta
          ((minimaxSearch O e player d (O.push b m)).2)) :=
      ihd (O.push b m) (max alpha value) beta k hab1
    rw [foldMax_cons]
    simp only [abLoopMax]
    rw [iteMax]
    set r : Score :=
      (abSearch O e player none d (O.push b m) (max alpha value) beta k).1.2
      with hr
    set tc : Score := (minimaxSearch O e player d (O.push b m)).2 with htc
    have halpha : max (max alpha value) (max value r) = max alpha (max value r) := by
      rw [max_assoc, ← max_assoc value value r, max_self]
    by_cases hbr : beta ≤ max (max alpha value) (max value r)
    · rw [if_pos hbr]
      have hbvr : beta ≤ max value r := by
        by_contra hc
        exact absurd hbr (not_le.2 (by rw [halpha]; exact max_lt hab (not_le.1 hc)))
      have hvr : max value r = r := by
        rcases le_total r value with h | h
        · exact absurd (le_trans hbvr (le_of_eq (max_eq_left h))) (not_le.2 hvb)
        · exact max_eq_right h
      have hbr2 : beta ≤ r := hvr ▸ hbvr
      have hlhs : max alpha (min beta (max value r)) = beta := by
        rw [min_eq_left (le_trans hbvr (le_refl _)), max_eq_right hab.le]
      have hchild2 : max (max alpha value) (min beta tc) = beta := by
        rw [← hchild, min_eq_left hbr2, max_eq_right hab1.le]
      have htcb : beta ≤ tc := by
        by_contra hc
        have h1 : min beta tc < beta := by
          rw [min_eq_right (not_le.1 hc).le]; exact not_le.1 hc
        exact absurd hchild2 (ne_of_lt (max_lt hab1 h1))
      have hrhs : beta ≤ foldMax (fun m => (minimaxSearch O e player d (O.push b m)).2)
          rest (max value tc) :=
        le_trans (le_trans htcb (le_max_right value tc)) (le_foldMax _ _ _)
      rw [hlhs, min_eq_left hrhs, max_eq_right hab.le]
    · rw [if_neg hbr]
      rw [abSearch_board, O.pop_push, halpha]
      have hvrb : max value r < beta := by
        have h1 : max (max alpha value) (max value r) < beta := not_le.1 hbr
        exact lt_of_le_of_lt (le_max_right _ _) h1
      rw [ihl b alpha beta _ (max value r) _ hab hvrb]
      exact squeeze_bridge_max _ rest alpha beta value r tc hvb hchild

/-- Window (squeeze) invariant of the minimizing loop (dual of
`abLoopMax_squeeze`). -/
theorem abLoopMin_squeeze (O : SearchOracle B M) (e : B → ℚ) (player : Bool)
    (d : Nat)
    (ihd : ∀ (b : B) (alpha beta : Score) (k : Nat), alpha < beta →
      max alpha (min beta ((abSearch O e player none d b alpha beta k).1.2)) =
      max alpha (min beta ((minimaxSearch O e player d b).2))) :
    ∀ (moves : List M) (b : B) (alpha beta : Score) (best : Option M)
      (value : Score) (k : Nat), alpha < beta → alpha < value →
      max alpha (min beta
        ((abLoopMin O (abSearch O e player none d) moves b alpha
          (min beta value) best value k).1.2)) =
      max alpha (min beta
        (foldMin (fun m => (minimaxSearch O e player d (O.push b m)).2)
          moves value)) := by
  intro moves
  induction moves with
  | nil => intro b alpha beta best value k _ _; rfl
  | cons m rest ihl =>
    intro b alpha beta best value k hab hav
    have hab1 : alpha < min beta value := lt_min hab hav
    have hchild :
        max alpha (min (min beta value)
          ((abSearch O e player none d (O.push b m) alpha (min beta value)
            k).1.2)) =
        max alpha (min (min beta value)
          ((minimaxSearch O e player d (O.push b m)).2)) :=
      ihd (O.push b m) alpha (min beta value) k hab1
    rw [foldMin_cons]
    simp only [abLoopMin]
    rw [iteMin]
    set r : Score :=
      (abSearch O e player none d (O.push b m) alpha (min beta value) k).1.2
      with hr
    set tc : Score := (minimaxSearch O e player d (O.push b m)).2 with htc
    have hbeta : min (min beta value) (min value r) = min beta (min value r) := by
      rw [min_assoc, ← min_assoc value value r, min_self]
    by_cases hbr : min (min beta value) (min value r) ≤ alpha
    · rw [if_pos hbr]
      have hbvr : min value r ≤ alpha := by
        by_contra hc
        exact absurd hbr (not_le.2 (by rw [hbeta]; exact lt_min hab (not_le.1 hc)))
      have hvr : min value r = r := by
        rcases le_total value r with h | h
        · rw [min_eq_left h] at hbvr; exact absurd hbvr (not_le.2 hav)
        · exact min_eq_right h
      have hra : r ≤ alpha := hvr ▸ hbvr
      have hchild2 : max alpha (min (min beta value) tc) = alpha := by
        rw [← hchild,
          min_eq_right (le_trans hra (le_min hab.le hav.le)), max_eq_left hra]
      have htca : tc ≤ alpha := by
        by_contra hc
        have h1 : alpha < min (min beta value) tc :=
          lt_min hab1 (not_le.1 hc)
        exact absurd hchild2 (ne_of_gt (lt_of_lt_of_le h1 (le_max_right _ _)))
      have hrhs_le :
          foldMin (fun m => (minimaxSearch O e player d (O.push b m)).2) rest
            (min value tc) ≤ alpha :=
        le_trans (foldMin_le _ _ _) (le_trans (min_le_right value tc) htca)
      rw [hvr, min_eq_right (le_trans hra hab.le), max_eq_left hra,
        min_eq_right (le_trans hrhs_le hab.le), max_eq_left hrhs_le]
    · rw [if_neg hbr]
      rw [abSearch_board, O.pop_push, hbeta]
      have havr : alpha < min value r := by
        have h1 : alpha < min (min beta value) (min value r) := not_le.1 hbr
        exact lt_of_lt_of_le h1 (min_le_right _ _)
      rw [ihl b alpha beta _ (min value r) _ hab havr]
      exact squeeze_bridge_min _ rest alpha beta value r tc hchild

/-- Node-level squeeze: within any consistent window, the value computed by
the pruning search clamps to the same thing as the unpruned minimax value. -/
theorem abSearch_squeeze (O : SearchOracle B M) (e : B → ℚ) (player : Bool) :
    ∀ (d : Nat) (b : B) (alpha beta : Score) (k : Nat), alpha < beta →
      max alpha (min beta ((abSearch O e player none d b alpha beta k).1.2)) =
      max alpha (min beta ((minimaxSearch O e player d b).2)) := by
  intro d
  induction d with
  | zero => intro b alpha beta k _; rfl
  | succ d ih =>
    intro b alpha beta k hab
    by_cases hgo : O.isGameOver b
    · simp only [abSearch, minimaxSearch, hgo, if_true]
    · simp only [abSearch, minimaxSearch, hgo, timeUp_none, Bool.false_eq_true,
        if_false]
      by_cases ht : O.turn b = player
      · simp only [ht, if_true]
        rw [scanMax_val]
        have h := abLoopMax_squeeze O e player d ih (O.legalMoves b) b alpha
          beta none ⊥ (k + 1) hab (lt_of_le_of_lt bot_le hab)
        rw [max_eq_left bot_le] at h
        exact h
      · simp only [ht, if_false]
        rw [scanMin_val]
        have h := abLoopMin_squeeze O e player d ih (O.legalMoves b) b alpha
          beta none ⊤ (k + 1) hab (lt_of_lt_of_le hab le_top)
        rw [min_eq_left le_top] at h
        exact h

/-- At the root of a maximizing node with the full window `(-inf, +inf)`
the pruning loop and the unpruned strict-improvement scan agree on the
chosen move and the value, step by step. -/
theorem abLoopMax_root (O : SearchOracle B M) (e : B → ℚ) (player : Bool)
    (d : Nat) :
    ∀ (moves : List M) (b : B) (best : Option M) (value : Score) (k : Nat),
      value < ⊤ →
      (abLoopMax O (abSearch O e player none d) moves b value ⊤ best value
        k).1 =
      scanMax (fun m => (minimaxSearch O e player d (O.push b m)).2) moves
        best value := by
  intro moves
  induction moves with
  | nil => intro b best value k _; rfl
  | cons m rest ihl =>
    intro b best value k hv
    have hch := abSearch_squeeze O e player d (O.push b m) value ⊤ k hv
    rw [min_eq_right le_top, min_eq_right le_top] at hch
    simp only [abLoopMax]
    rw [iteMax]
    set r : Score :=
      (abSearch O e player none d (O.push b m) value ⊤ k).1.2 with hr
    set tc : Score := (minimaxSearch O e player d (O.push b m)).2 with htc
    have halpha : max value (max value r) = max value r := by
      rw [← max_assoc, max_self]
    by_cases hvr : value < r
    · have hvtc : value < tc := by
        by_contra hc
        rw [max_eq_left (not_lt.1 hc)] at hch
        exact absurd (max_eq_left_iff.1 hch) (not_le.2 hvr)
      have hrtc : r = tc := by
        rw [max_eq_right hvr.le, max_eq_right hvtc.le] at hch; exact hch
      by_cases hbr : (⊤ : Score) ≤ max value (max value r)
      · rw [if_pos hbr, if_pos hvr]
        have hrt : r = ⊤ := by
          rw [halpha, max_eq_right hvr.le] at hbr
          exact top_le_iff.1 hbr
        rw [scanMax, if_pos hvtc,
          scanMax_of_le _ rest (some m) tc fun x _ => by
            rw [← hrtc, hrt]; exact le_top]
        rw [max_eq_right hvr.le, hrtc]
      · rw [if_neg hbr, if_pos hvr]
        have hrlt : r < ⊤ := by
          have h1 : max value (max value r) < ⊤ := not_le.1 hbr
          exact lt_of_le_of_lt
            (le_trans (le_max_right _ _) (le_max_right _ _)) h1
        rw [abSearch_board, O.pop_push, halpha]
        have h2 : max value r < ⊤ := by rw [max_eq_right hvr.le]; exact hrlt
        rw [ihl b (some m) (max value r) _ h2]
        rw [max_eq_right hvr.le, hrtc, scanMax, if_pos hvtc]
    · have hvtc : ¬ value < tc := by
        intro hc
        rw [max_eq_left (not_lt.1 hvr)] at hch
        exact absurd hc (not_lt.2 (max_eq_left_iff.1 hch.symm))
      rw [max_eq_left (not_lt.1 hvr), if_neg hvr, max_self,
        if_neg (not_le.2 hv)]
      rw [abSearch_board, O.pop_push]
      rw [ihl b best value _ hv, scanMax, if_neg hvtc]

/-- Dual root lemma for a minimizing node. -/
theorem abLoopMin_root (O : SearchOracle B M) (e : B → ℚ) (player : Bool)
    (d : Nat) :
    ∀ (moves : List M) (b : B) (best : Option M) (value : Score) (k : Nat),
      ⊥ < value →
      (abLoopMin O (abSearch O e player none d) moves b ⊥ value best value
        k).1 =
      scanMin (fun m => (minimaxSearch O e player d (O.push b m)).2) moves
        best value := by
  intro moves
  induction moves with
  | nil => intro b best value k _; rfl
  | cons m rest ihl =>
    intro b best value k hv
    have hch := abSearch_squeeze O e player d (O.push b m) ⊥ value k hv
    rw [max_eq_right bot_le, max_eq_right bot_le] at hch
    simp only [abLoopMin]
    rw [iteMin]
    set r : Score :=
      (abSearch O e player none d (O.push b m) ⊥ value k).1.2 with hr
    set tc : Score := (minimaxSearch O e player d (O.push b m)).2 with htc
    have hbeta : min value (min value r) = min value r := by
      rw [← min_assoc, min_self]
    by_cases hvr : r < value
    · have hvtc : tc < value := by
        by_contra hc
        rw [min_eq_left (not_lt.1 hc)] at hch
        exact absurd (min_eq_left_iff.1 hch) (not_le.2 hvr)
      have hrtc : r = tc := by
        rw [min_eq_right hvr.le, min_eq_right hvtc.le] at hch; exact hch
      by_cases hbr : min value (min value r) ≤ (⊥ : Score)
      · rw [if_pos hbr, if_pos hvr]
        have hrt : r = ⊥ := by
          rw [hbeta, min_eq_right hvr.le] at hbr
          exact le_bot_iff.1 hbr
        rw [scanMin, if_pos hvtc,
          scanMin_of_le _ rest (some m) tc fun x _ => by
            rw [← hrtc, hrt]; exact bot_le]
        rw [min_eq_right hvr.le, hrtc]
      · rw [if_neg hbr, if_pos hvr]
        have hrlt : ⊥ < r := by
          have h1 : (⊥ : Score) < min value (min value r) := not_le.1 hbr
          exact lt_of_lt_of_le h1
            (le_trans (min_le_right _ _) (min_le_right _ _))
        rw [abSearch_board, O.pop_push, hbeta]
        have h2 : (⊥ : Score) < min value r := by
          rw [min_eq_right hvr.le]; exact hrlt
        rw [ihl b (some m) (min value r) _ h2]
        rw [min_eq_right hvr.le, hrtc, scanMin, if_pos hvtc]
    · have hvtc : ¬ tc < value := by
        intro hc
        rw [min_eq_left (not_lt.1 hvr)] at hch
        exact absurd hc (not_lt.2 (min_eq_left_iff.1 hch.symm))
      rw [min_eq_left (not_lt.1 hvr), if_neg hvr, min_self,
        if_neg (not_le.2 hv)]
      rw [abSearch_board, O.pop_push]
      rw [ihl b best value _ hv, scanMin, if_neg hvtc]

/-- C1: for every position, every search depth `d`, and every fixed
perspective side, if the deadline never fires at any node during the search
(`N = none`), then `alpha_beta_search(position, d, -inf, +inf, perspective)`
returns the same move and the same score as an unpruned full
fixed-perspective minimax of depth `d` over the same game tree (same native
move enumeration order, same strict-improvement tie-break): pruning changes
only the node count, not the result. -/
theorem claim_C1_alphaBeta_equals_minimax {B M : Type}
    (O : SearchOracle B M) (e : B → ℚ) (player : Bool) (d : Nat) (b : B)
    (k : Nat) :
    (abSearch O e player none d b ⊥ ⊤ k).1 = minimaxSearch O e player d b := by
  cases d with
  | zero => rfl
  | succ d =>
    by_cases hgo : O.isGameOver b
    · simp only [abSearch, minimaxSearch, hgo, if_true]
    · simp only [abSearch, minimaxSearch, hgo, timeUp_none,
        Bool.false_eq_true, if_false]
      by_cases ht : O.turn b = player
      · simp only [ht, if_true]
        exact abLoopMax_root O e player d (O.legalMoves b) b none ⊥ (k + 1)
          bot_lt_top
      · simp only [ht, if_false]
        exact abLoopMin_root O e player d (O.legalMoves b) b none ⊤ (k + 1)
          bot_lt_top

end Equivalence

section Bounds

variable {B M : Type}

theorem abLoopMax_bounds (O : SearchOracle B M)
    (child : B → Score → Score → Nat → (Option M × Score) × B × Nat)
    (hchild : ∀ b alpha beta k,
      ⊥ < (child b alpha beta k).1.2 ∧ (child b alpha beta k).1.2 < ⊤) :
    ∀ (moves : List M) (b : B) (alpha beta : Score) (best : Option M)
      (value : Score) (k : Nat), value < ⊤ → (moves ≠ [] ∨ ⊥ < value) →
      ⊥ < (abLoopMax O child moves b alpha beta best value k).1.2 ∧
      (abLoopMax O child moves b alpha beta best value k).1.2 < ⊤ := by
  intro moves
  induction moves with
  | nil =>
    intro b alpha beta best value k hv hne
    rcases hne with hne | hne
    · exact absurd rfl hne
    · exact ⟨hne, hv⟩
  | cons m rest ih =>
    intro b alpha beta best value k hv _
    have hs := hchild (O.push b m) alpha beta k
    simp only [abLoopMax]
    rw [iteMax]
    have hb1 : ⊥ < max value (child (O.push b m) alpha beta k).1.2 :=
      lt_of_lt_of_le hs.1 (le_max_right _ _)
    have ht1 : max value (child (O.push b m) alpha beta k).1.2 < ⊤ :=
      max_lt hv hs.2
    split
    · exact ⟨hb1, ht1⟩
    · exact ih _ _ beta _ _ _ ht1 (Or.inr hb1)

theorem abLoopMin_bounds (O : SearchOracle B M)
    (child : B → Score → Score → Nat → (Option M × Score) × B × Nat)
    (hchild : ∀ b alpha beta k,
      ⊥ < (child b alpha beta k).1.2 ∧ (child b alpha beta k).1.2 < ⊤) :
    ∀ (moves : List M) (b : B) (alpha beta : Score) (best : Option M)
      (value : Score) (k : Nat), ⊥ < value → (moves ≠ [] ∨ value < ⊤) →
      ⊥ < (abLoopMin O child moves b alpha beta best value k).1.2 ∧
      (abLoopMin O child moves b alpha beta best value k).1.2 < ⊤ := by
  intro moves
  induction moves with
  | nil =>
    intro b alpha beta best value k hv hne
    rcases hne with hne | hne
    · exact absurd rfl hne
    · exact ⟨hv, hne⟩
  | cons m rest ih =>
    intro b alpha beta best value k hv _
    have hs := hchild (O.push b m) alpha beta k
    simp only [abLoopMin]
    rw [iteMin]
    have hb1 : ⊥ < min value (child (O.push b m) alpha beta k).1.2 :=
      lt_min hv hs.1
    have ht1 : min value (child (O.push b m) alpha beta k).1.2 < ⊤ :=
      lt_of_le_of_lt (min_le_right _ _) hs.2
    split
    · exact ⟨hb1, ht1⟩
    · exact ih _ alpha _ _ _ _ hb1 (Or.inr ht1)

/-- Under the chess-rules invariant "a position that is not game over has a
legal move", every search value is strictly between the infinities. -/
theorem abSearch_bounds (O : SearchOracle B M) (e : B → ℚ) (player : Bool)
    (N : Option Nat)
    (H : ∀ b, O.isGameOver b = false → O.legalMoves b ≠ []) :
    ∀ (d : Nat) (b : B) (alpha beta : Score) (k : Nat),
      ⊥ < (abSearch O e player N d b alpha beta k).1.2 ∧
      (abSearch O e player N d b alpha beta k).1.2 < ⊤ := by
  intro d
  induction d with
  | zero => intro b alpha beta k; exact ⟨bot_lt_sc _, sc_lt_top _⟩
  | succ d ih =>
    intro b alpha beta k
    by_cases hgo : O.isGameOver b
    · simp only [abSearch, hgo, if_true]
      exact ⟨bot_lt_sc _, sc_lt_top _⟩
    · simp only [abSearch, hgo, Bool.false_eq_true, if_false]
      by_cases htu : timeUp N k
      · simp only [htu, if_true]
        exact ⟨bot_lt_sc _, sc_lt_top _⟩
      · simp only [htu, Bool.false_eq_true, if_false]
        by_cases ht : O.turn b = player
        · simp only [ht, if_true]
          exact abLoopMax_bounds O _ (fun b a be k => ih b a be k) _ b _ _ _ _
            _ bot_lt_top (Or.inl (H b (by simp [hgo])))
        · simp only [ht, if_false]
          exact abLoopMin_bounds O _ (fun b a be k => ih b a be k) _ b _ _ _ _
            _ bot_lt_top (Or.inl (H b (by simp [hgo])))

theorem abLoopMax_keepSome (O : SearchOracle B M)
    (child : B → Score → Score → Nat → (Option M × Score) × B × Nat) :
    ∀ (moves : List M) (b : B) (alpha beta : Score) (best : Option M)
      (value : Score) (k : Nat), best.isSome →
      ((abLoopMax O child moves b alpha beta best value k).1.1).isSome := by
  intro moves
  induction moves with
  | nil => intro b alpha beta best value k h; exact h
  | cons m rest ih =>
    intro b alpha beta best value k h
    simp only [abLoopMax]
    split <;> split
    · rfl
    · exact ih _ _ beta _ _ _ rfl
    · exact h
    · exact ih _ _ beta _ _ _ h

theorem abLoopMin_keepSome (O : SearchOracle B M)
    (child : B → Score → Score → Nat → (Option M × Score) × B × Nat) :
    ∀ (moves : List M) (b : B) (alpha beta : Score) (best : Option M)
      (value : Score) (k : Nat), best.isSome →
      ((abLoopMin O child moves b alpha beta best value k).1.1).isSome := by
  intro moves
  induction moves with
  | nil => intro b alpha beta best value k h; exact h
  | cons m rest ih =>
    intro b alpha beta best value k h
    simp only [abLoopMin]
    split <;> split
    · rfl
    · exact ih _ alpha _ _ _ _ rfl
    · exact h
    · exact ih _ alpha _ _ _ _ h

end Bounds

section Claim10

variable {B M : Type}

/-- C10 (implicit): for every call to `alpha_beta_search` with `depth ≥ 1`,
a position that is not game over, elapsed time not past the limit at node
entry, and `alpha < beta`, the returned `SearchResult`'s move component is
not `none`; and the move component is `none` in each of the leaf cases
(depth 0, game over, deadline already exceeded at entry), because the first
enumerated child always strictly improves the initial `±inf` bound.  The
hypothesis `H` is the chess-rules invariant that a position that is not
game over has at least one legal move. -/
theorem claim_C10_move_none_iff_leaf (O : SearchOracle B M) (e : B → ℚ)
    (player : Bool) (N : Option Nat)
    (H : ∀ b, O.isGameOver b = false → O.legalMoves b ≠ [])
    (d : Nat) (b : B) (alpha beta : Score) (k : Nat)
    (hgo : O.isGameOver b = false) (htu : timeUp N k = false)
    (_hab : alpha < beta) :
    ((abSearch O e player N (d + 1) b alpha beta k).1.1).isSome = true ∧
    (∀ (b' : B) (alpha' beta' : Score) (k' : Nat),
      (abSearch O e player N 0 b' alpha' beta' k').1.1 = none) ∧
    (∀ (d' : Nat) (b' : B) (alpha' beta' : Score) (k' : Nat),
      O.isGameOver b' = true →
      (abSearch O e player N (d' + 1) b' alpha' beta' k').1.1 = none) ∧
    (∀ (d' : Nat) (b' : B) (alpha' beta' : Score) (k' : Nat),
      O.isGameOver b' = false → timeUp N k' = true →
      (abSearch O e player N (d' + 1) b' alpha' beta' k').1.1 = none) := by
  refine ⟨?_, fun b' alpha' beta' k' => rfl, ?_, ?_⟩
  · have hchild : ∀ (b : B) (alpha beta : Score) (k : Nat),
        ⊥ < (abSearch O e player N d b alpha beta k).1.2 ∧
        (abSearch O e player N d b alpha beta k).1.2 < ⊤ :=
      fun b a be k => abSearch_bounds O e player N H d b a be k
    simp only [abSearch, hgo, htu, Bool.false_eq_true, if_false]
    rcases hmoves : O.legalMoves b with _ | ⟨m, rest⟩
    · exact absurd hmoves (H b hgo)
    · by_cases ht : O.turn b = player
      · simp only [ht, if_true]
        simp only [abLoopMax]
        rw [if_pos (hchild (O.push b m) alpha beta (k + 1)).1,
          if_pos (hchild (O.push b m) alpha beta (k + 1)).1]
        split
        · rfl
        · exact abLoopMax_keepSome O _ rest _ _ beta _ _ _ rfl
      · simp only [ht, if_false]
        simp only [abLoopMin]
        rw [if_pos (hchild (O.push b m) alpha beta (k + 1)).2,
          if_pos (hchild (O.push b m) alpha beta (k + 1)).2]
        split
        · rfl
        · exact abLoopMin_keepSome O _ rest _ alpha _ _ _ _ rfl
  · intro d' b' alpha' beta' k' h
    simp only [abSearch, h, if_true]
  · intro d' b' alpha' beta' k' h1 h2
    simp only [abSearch, h1, Bool.false_eq_true, if_false, h2, if_true]

end Claim10

section ConcreteGames

/-- A finite game description, from which a `SearchOracle` is built: the
board is the current position together with the stack of previous
positions, so that `push`/`pop` have the stack semantics of `chess.Board`. -/
structure GameDef (Pos Move : Type) where
  moves : Pos → List Move
  next : Pos → Move → Pos
  turn : Pos → Bool
  over : Pos → Bool

/-- A position plus the stack of previously visited positions. -/
abbrev StackBoard (Pos : Type) : Type := Pos × List Pos

/-- The Position Oracle of a finite game description. -/
def GameDef.oracle {Pos Move : Type} (G : GameDef Pos Move) :
    SearchOracle (StackBoard Pos) Move where
  legalMoves := fun b => G.moves b.1
  push := fun b m => (G.next b.1 m, b.1 :: b.2)
  pop := fun b =>
    match b with
    | (p, []) => (p, [])
    | (_, q :: st) => (q, st)
  isGameOver := fun b => G.over b.1
  turn := fun b => G.turn b.1
  pop_push := fun _ _ => rfl

/-- A two-position cycle in which the side to move alternates and each
position has exactly one legal move; it satisfies the invariant that a
non-terminal position has a legal move. -/
def cycGame : GameDef Bool Unit where
  moves := fun _ => [()]
  next := fun p _ => !p
  turn := fun p => p
  over := fun _ => false

/-- Witness for C10: at the cycle game, searching depth 1 from a
non-terminal position with an unexpired deadline and `⊥ < ⊤` yields a
move. -/
theorem claim_C10_witness :
    cycGame.oracle.isGameOver (true, []) = false ∧
    timeUp none 0 = false ∧
    ((abSearch cycGame.oracle (fun _ => (0 : ℚ)) true none 1 (true, [])
      ⊥ ⊤ 0).1.1).isSome = true :=
  ⟨rfl, rfl,
    (claim_C10_move_none_iff_leaf cycGame.oracle (fun _ => (0 : ℚ)) true none
      (fun _ _ => by simp [cycGame, GameDef.oracle])
      0 (true, []) ⊥ ⊤ 0 rfl rfl bot_lt_top).1⟩

end ConcreteGames

section Claim9

variable {B M : Type}

/-- At depth 1 with `beta = ⊤` the maximizing loop never breaks (finite
child evaluations cannot reach `⊤`) and coincides with the strict
improvement scan of the one-ply child evaluations. -/
theorem abLoopMax_depth1 (O : SearchOracle B M) (e : B → ℚ)
    (child : B → Score → Score → Nat → (Option M × Score) × B × Nat)
    (hchild : ∀ b alpha beta k, child b alpha beta k = ((none, sc (e b)), b, k)) :
    ∀ (moves : List M) (b : B) (alpha : Score) (best : Option M)
      (value : Score) (k : Nat), alpha < ⊤ → value < ⊤ →
      (abLoopMax O child moves b alpha ⊤ best value k).1 =
      scanMax (fun m => sc (e (O.push b m))) moves best value := by
  intro moves
  induction moves with
  | nil => intro b alpha best value k _ _; rfl
  | cons m rest ih =>
    intro b alpha best value k ha hv
    simp only [abLoopMax, hchild, scanMax]
    rw [iteMax, O.pop_push]
    have hnb : ¬ (⊤ : Score) ≤ max alpha (max value (sc (e (O.push b m)))) :=
      not_le.2 (max_lt ha (max_lt hv (sc_lt_top _)))
    rw [if_neg hnb]
    by_cases hvr : value < sc (e (O.push b m))
    · rw [if_pos hvr, if_pos hvr, max_eq_right hvr.le]
      exact ih b _ (some m) _ k (max_lt ha (sc_lt_top _)) (sc_lt_top _)
    · rw [if_neg hvr, if_neg hvr, max_eq_left (not_lt.1 hvr)]
      exact ih b _ best value k (max_lt ha hv) hv

/-- Dual bridge for a minimizing node at depth 1. -/
theorem abLoopMin_depth1 (O : SearchOracle B M) (e : B → ℚ)
    (child : B → Score → Score → Nat → (Option M × Score) × B × Nat)
    (hchild : ∀ b alpha beta k, child b alpha beta k = ((none, sc (e b)), b, k)) :
    ∀ (moves : List M) (b : B) (beta : Score) (best : Option M)
      (value : Score) (k : Nat), ⊥ < beta → ⊥ < value →
      (abLoopMin O child moves b ⊥ beta best value k).1 =
      scanMin (fun m => sc (e (O.push b m))) moves best value := by
  intro moves
  induction moves with
  | nil => intro b beta best value k _ _; rfl
  | cons m rest ih =>
    intro b beta best value k hb hv
    simp only [abLoopMin, hchild, scanMin]
    rw [iteMin, O.pop_push]
    have hnb : ¬ min beta (min value (sc (e (O.push b m)))) ≤ (⊥ : Score) :=
      not_le.2 (lt_min hb (lt_min hv (bot_lt_sc _)))
    rw [if_neg hnb]
    by_cases hvr : sc (e (O.push b m)) < value
    · rw [if_pos hvr, if_pos hvr, min_eq_right hvr.le]
      exact ih b _ (some m) _ k (lt_min hb (bot_lt_sc _)) (bot_lt_sc _)
    · rw [if_neg hvr, if_neg hvr, min_eq_left (not_lt.1 hvr)]
      exact ih b _ best value k (lt_min hb hv) hv

/-- C9 (amended): for every position with at least one legal move, every
perspective, and every deadline that has not already fired at the root
entry of a position that is not game over,
`alpha_beta_search(position, 1, -inf, +inf, perspective, deadline)` returns
a move whose resulting one-ply child evaluation is the maximum over all
legal moves when the side to move equals the perspective, and the minimum
otherwise. -/
theorem claim_C9_depth1_amended (O : SearchOracle B M) (e : B → ℚ)
    (player : Bool) (N : Option Nat) (b : B) (k : Nat)
    (hgo : O.isGameOver b = false) (htu : timeUp N k = false)
    (hne : O.legalMoves b ≠ []) :
    ∃ mv, (abSearch O e player N 1 b ⊥ ⊤ k).1.1 = some mv ∧
      mv ∈ O.legalMoves b ∧
      (abSearch O e player N 1 b ⊥ ⊤ k).1.2 = sc (e (O.push b mv)) ∧
      (O.turn b = player →
        ∀ x ∈ O.legalMoves b, sc (e (O.push b x)) ≤ sc (e (O.push b mv))) ∧
      (O.turn b ≠ player →
        ∀ x ∈ O.legalMoves b, sc (e (O.push b mv)) ≤ sc (e (O.push b x))) := by
  by_cases ht : O.turn b = player
  · simp only [abSearch, hgo, htu, Bool.false_eq_true, if_false]
    rw [if_pos ht]
    rw [abLoopMax_depth1 O e _ (fun _ _ _ _ => rfl) (O.legalMoves b) b ⊥ none
      ⊥ (k + 1) bot_lt_top bot_lt_top]
    rcases scanMax_result (fun m => sc (e (O.push b m))) (O.legalMoves b)
        none ⊥ with ⟨_, hle⟩ | ⟨l1, mv, l2, hsplit, hfst, hsnd, _, h1, h2⟩
    · rcases hmoves : O.legalMoves b with _ | ⟨m, rest⟩
      · exact absurd hmoves hne
      · exact absurd (hle m (by rw [hmoves]; exact List.mem_cons_self m rest))
          (not_le.2 (bot_lt_sc _))
    · refine ⟨mv, hfst, ?_, hsnd, ?_, ?_⟩
      · rw [hsplit]
        exact List.mem_append.2 (Or.inr (List.mem_cons_self _ _))
      · intro _ x hx
        rw [hsplit] at hx
        rcases List.mem_append.1 hx with hx | hx
        · exact (h1 x hx).le
        · rcases List.mem_cons.1 hx with hx | hx
          · rw [hx]
          · exact h2 x hx
      · intro hcon; exact absurd ht hcon
  · simp only [abSearch, hgo, htu, Bool.false_eq_true, if_false]
    rw [if_neg ht]
    rw [abLoopMin_depth1 O e _ (fun _ _ _ _ => rfl) (O.legalMoves b) b ⊤ none
      ⊤ (k + 1) bot_lt_top bot_lt_top]
    rcases scanMin_result (fun m => sc (e (O.push b m))) (O.legalMoves b)
        none ⊤ with ⟨_, hle⟩ | ⟨l1, mv, l2, hsplit, hfst, hsnd, _, h1, h2⟩
    · rcases hmoves : O.legalMoves b with _ | ⟨m, rest⟩
      · exact absurd hmoves hne
      · exact absurd (hle m (by rw [hmoves]; exact List.mem_cons_self m rest))
          (not_le.2 (sc_lt_top _))
    · refine ⟨mv, hfst, ?_, hsnd, ?_, ?_⟩
      · rw [hsplit]
        exact List.mem_append.2 (Or.inr (List.mem_cons_self _ _))
      · intro hcon; exact absurd hcon ht
      · intro _ x hx
        rw [hsplit] at hx
        rcases List.mem_append.1 hx with hx | hx
        · exact (h1 x hx).le
        · rcases List.mem_cons.1 hx with hx | hx
          · rw [hx]
          · exact h2 x hx

/-- Counterexample to C9 as stated: with a deadline that has already fired
at the root entry (`N = some 0`), the depth-1 search returns no move at all
even though the position has a legal move, so it does not return "a move
whose resulting one-ply child evaluation is the maximum". -/
theorem claim_C9_counterexample :
    (abSearch cycGame.oracle (fun _ => (0 : ℚ)) true (some 0) 1 (true, [])
      ⊥ ⊤ 0).1.1 = none ∧
    cycGame.oracle.legalMoves (true, []) ≠ [] :=
  ⟨rfl, by simp [cycGame, GameDef.oracle]⟩

/-- Witness for the amended C9 at the cycle game with an unexpired
deadline. -/
theorem claim_C9_witness :
    cycGame.oracle.isGameOver (true, []) = false ∧
    timeUp none 0 = false ∧
    cycGame.oracle.legalMoves (true, []) ≠ [] ∧
    (∃ mv,
      (abSearch cycGame.oracle (fun _ => (0 : ℚ)) true none 1 (true, [])
        ⊥ ⊤ 0).1.1 = some mv ∧
      mv ∈ cycGame.oracle.legalMoves (true, []) ∧
      (abSearch cycGame.oracle (fun _ => (0 : ℚ)) true none 1 (true, [])
        ⊥ ⊤ 0).1.2 =
        sc ((fun _ => (0 : ℚ)) (cycGame.oracle.push (true, []) mv)) ∧
      (cycGame.oracle.turn (true, []) = true →
        ∀ x ∈ cycGame.oracle.legalMoves (true, []),
          sc ((fun _ => (0 : ℚ)) (cycGame.oracle.push (true, []) x)) ≤
          sc ((fun _ => (0 : ℚ)) (cycGame.oracle.push (true, []) mv))) ∧
      (cycGame.oracle.turn (true, []) ≠ true →
        ∀ x ∈ cycGame.oracle.legalMoves (true, []),
          sc ((fun _ => (0 : ℚ)) (cycGame.oracle.push (true, []) mv)) ≤
          sc ((fun _ => (0 : ℚ)) (cycGame.oracle.push (true, []) x)))) :=
  ⟨rfl, rfl, by simp [cycGame, GameDef.oracle],
    claim_C9_depth1_amended cycGame.oracle (fun _ => (0 : ℚ)) true none
      (true, []) 0 rfl rfl (by simp [cycGame, GameDef.oracle])⟩

end Claim9

section Deepening

variable {B M : Type}

/-- The iterative-deepening driving loop of `select_move`
(lines 84-91 of `chess_agent.py`): while the while-condition clock read
(observation `k`) is below the deadline, run `alpha_beta_search` at the
current depth (its node-entry clock reads continue the observation count),
overwrite the running best move whenever the returned move is not `None`,
and deepen.  The loop terminates because every iteration advances the
observation counter past the deadline eventually. -/
def searchLoop (O : SearchOracle B M) (e : B → ℚ) (player : Bool) (n : Nat)
    (b : B) (depth : Nat) (best : Option M) (k : Nat) : Option M :=
  if h : n ≤ k then best
  else
    searchLoop O e player n b (depth + 1)
      (if (abSearch O e player (some n) depth b ⊥ ⊤ (k + 1)).1.1.isSome then
        (abSearch O e player (some n) depth b ⊥ ⊤ (k + 1)).1.1
      else best)
      (abSearch O e player (some n) depth b ⊥ ⊤ (k + 1)).2.2
termination_by n - k
decreasing_by
  have h1 : k + 1 ≤ (abSearch O e player (some n) depth b ⊥ ⊤ (k + 1)).2.2 :=
    abSearch_k_le O e player (some n) depth b ⊥ ⊤ (k + 1)
  omega

theorem searchLoop_fuel (O : SearchOracle B M) (e : B → ℚ) (player : Bool)
    (n : Nat) (b : B) :
    ∀ (fuel depth : Nat) (best : Option M) (k : Nat), n ≤ k + fuel →
      searchLoop O e player n b depth best k = best ∨
      (searchLoop O e player n b depth best k).isSome = true := by
  intro fuel
  induction fuel with
  | zero =>
    intro depth best k h
    rw [searchLoop, dif_pos (by omega : n ≤ k)]
    exact Or.inl rfl
  | succ fuel ih =>
    intro depth best k h
    rw [searchLoop]
    by_cases hk : n ≤ k
    · rw [dif_pos hk]; exact Or.inl rfl
    · rw [dif_neg hk]
      have hmono : k + 1 ≤
          (abSearch O e player (some n) depth b ⊥ ⊤ (k + 1)).2.2 :=
        abSearch_k_le O e player (some n) depth b ⊥ ⊤ (k + 1)
      have hk2 : n ≤ (abSearch O e player (some n) depth b ⊥ ⊤ (k + 1)).2.2
          + fuel := by omega
      by_cases hs : (abSearch O e player (some n) depth b ⊥ ⊤ (k + 1)).1.1.isSome
      · rw [if_pos hs]
        rcases ih (depth + 1) _ _ hk2 with heq | hsome
        · right; rw [heq]; exact hs
        · right; exact hsome
      · rw [if_neg hs]
        exact ih (depth + 1) best _ hk2

/-- C5 (amended): the driving loop discards a `none` move from a deeper,
time-expired attempt, keeping the incoming best move: its result is either
the best move it started with, or a non-`none` move produced by one of the
attempts.  (A deeper attempt cut short by the deadline may however still
return a non-`none` partial move, which does overwrite the shallower
fully-resolved best move; see the counterexample.) -/
theorem claim_C5_none_discarded (O : SearchOracle B M) (e : B → ℚ)
    (player : Bool) (n : Nat) (b : B) (depth : Nat) (best : Option M)
    (k : Nat) :
    searchLoop O e player n b depth best k = best ∨
    (searchLoop O e player n b depth best k).isSome = true :=
  searchLoop_fuel O e player n b n depth best k (by omega)

/-- The five-position game refuting the strong form of C5: from `root`
(White to move) moves `0`, `1` lead to `pa`, `pb` (Black to move); from
`pa` moves `0`, `1` lead to `pa1`, `pa2`. -/
inductive P5 : Type
  | root
  | pa
  | pb
  | pa1
  | pa2
deriving DecidableEq

/-- Game tree of the C5 counterexample. -/
def gameC5 : GameDef P5 Nat where
  moves := fun p =>
    match p with
    | .root => [0, 1]
    | .pa => [0, 1]
    | _ => []
  next := fun p m =>
    match p, m with
    | .root, 0 => .pa
    | .root, _ => .pb
    | .pa, 0 => .pa1
    | .pa, _ => .pa2
    | p, _ => p
  turn := fun p =>
    match p with
    | .root => true
    | .pa1 => true
    | .pa2 => true
    | _ => false
  over := fun _ => false

/-- Static evaluation of the C5 counterexample: the shallow evaluation
loves `pa` (10), but its depth-1 refutation is `-5`. -/
def evalC5 : StackBoard P5 → ℚ := fun b =>
  match b.1 with
  | .root => 0
  | .pa => 10
  | .pb => 0
  | .pa1 => -5
  | .pa2 => 7

/-- Counterexample to C5 as stated: with deadline `n = 5`, the depth-2
attempt is cut short by the deadline (node `pb` is entered after it fires)
yet still returns the non-`none` move `1`, which overwrites the depth-1
result; the loop returns move `1` although the best move of the last
fully-resolved depth (depth 1) is move `0`. -/
theorem claim_C5_counterexample :
    searchLoop gameC5.oracle evalC5 true 5 (P5.root, []) 1 none 0 = some 1 ∧
    (abSearch gameC5.oracle evalC5 true none 1 (P5.root, []) ⊥ ⊤ 0).1.1 =
      some 0 ∧
    (some 1 : Option Nat) ≠ some 0 := by
  refine ⟨?_, by decide, by decide⟩
  have h1 : abSearch gameC5.oracle evalC5 true (some 5) 1 (P5.root, []) ⊥ ⊤ 1
      = ((some 0, sc 10), (P5.root, []), 2) := by decide
  have h2 : abSearch gameC5.oracle evalC5 true (some 5) 2 (P5.root, []) ⊥ ⊤ 3
      = ((some 1, sc 0), (P5.root, []), 6) := by decide
  rw [searchLoop, dif_neg (by decide : ¬ (5 : Nat) ≤ 0), h1]
  simp only [Option.isSome_some, if_true]
  rw [searchLoop, dif_neg (by decide : ¬ (5 : Nat) ≤ 2), h2]
  simp only [Option.isSome_some, if_true]
  rw [searchLoop, dif_pos (by decide : (5 : Nat) ≤ 6)]

end Deepening

section Selector

variable {B M : Type}

/-- The per-agent mutable counters and repertoire data of `ChessAgent`. -/
structure AgentState : Type where
  color : Bool
  testOpeningMoves : List String
  magnusMoves : List String
  openingPlayed : Nat
  magnusPlayed : Nat

/-- The no-result fallback of `select_move` (lines 98-107): evaluate the
position after each legal move (push, evaluate, pop) and keep the first
move with the strictly highest evaluation, starting from `-inf`. -/
def fallbackScan (O : SearchOracle B M) (e : B → ℚ) :
    List M → B → Option M → Score → Option M
  | [], _, best, _ => best
  | m :: rest, b, best, bestEval =>
    let b1 := O.push b m
    let v := sc (e b1)
    let b2 := O.pop b1
    if bestEval < v then fallbackScan O e rest b2 (some m) v
    else fallbackScan O e rest b2 best bestEval

theorem fallbackScan_eq_scanMax (O : SearchOracle B M) (e : B → ℚ) :
    ∀ (l : List M) (b : B) (best : Option M) (v : Score),
      fallbackScan O e l b best v =
      (scanMax (fun m => sc (e (O.push b m))) l best v).1 := by
  intro l
  induction l with
  | nil => intro b best v; rfl
  | cons m rest ih =>
    intro b best v
    simp only [fallbackScan, scanMax, O.pop_push]
    split
    · exact ih b (some m) _
    · exact ih b best v

/-- The search-then-fallback tail of `select_move` (lines 84-107): run the
iterative-deepening loop; if it produced a move return it, otherwise run
the one-ply static fallback scan. -/
def searchFallback (O : SearchOracle B M) (e : B → ℚ) (player : Bool)
    (n : Nat) (b : B) : Option M :=
  match searchLoop O e player n b 1 none 0 with
  | some mv => some mv
  | none => fallbackScan O e (O.legalMoves b) b none ⊥

/-- `ChessAgent.select_move` (lines 54-107).  `parseSan b s = none` models
`board.parse_san` raising (the `except` path).  The scripted-opening branch
is guarded by `color == WHITE and test_opening_moves` (list truthiness);
any failure inside it (exhausted index, parse failure, illegal move) falls
through past the `elif` directly to the search section, exactly as in the
Python control flow. -/
def selectMove (O : SearchOracle B M) [DecidableEq M]
    (parseSan : B → String → Option M) (e : B → ℚ) (n : Nat)
    (A : AgentState) (b : B) : Option M × AgentState :=
  if A.color = true ∧ A.testOpeningMoves ≠ [] then
    if h : A.openingPlayed < A.testOpeningMoves.length then
      match parseSan b (A.testOpeningMoves.get ⟨A.openingPlayed, h⟩) with
      | some mv =>
        if mv ∈ O.legalMoves b then
          (some mv, { A with openingPlayed := A.openingPlayed + 1 })
        else (searchFallback O e A.color n b, A)
      | none => (searchFallback O e A.color n b, A)
    else (searchFallback O e A.color n b, A)
  else if h : A.magnusPlayed < A.magnusMoves.length then
    match parseSan b (A.magnusMoves.get ⟨A.magnusPlayed, h⟩) with
    | some mv =>
      if mv ∈ O.legalMoves b then
        (some mv, { A with magnusPlayed := A.magnusPlayed + 1 })
      else (searchFallback O e A.color n b, A)
    | none => (searchFallback O e A.color n b, A)
  else (searchFallback O e A.color n b, A)

theorem searchLoop_fired (O : SearchOracle B M) (e : B → ℚ) (player : Bool)
    (n : Nat) (b : B) (depth : Nat) (best : Option M) (k : Nat)
    (h : n ≤ k) : searchLoop O e player n b depth best k = best := by
  rw [searchLoop, dif_pos h]

/-- C2 (amended): whenever the scripted opening branch does not apply —
the agent is not White or the scripted opening list is empty — the
selector next tries the historical source with the parse-validate-consume
procedure: if the historical list is not exhausted and its next entry
parses to a legal move, that move is returned and the historical counter
advanced, without invoking search; if the entry fails to parse or is not
legal, or the historical list is exhausted, the selector falls through to
the search-and-fallback tail with the state unchanged.  But when the agent
is White and the scripted opening list is nonempty, any failure of the
opening source for this turn — exhausted index, SAN parse failure, or a
parsed move that is not legal — falls through directly to the
search-and-fallback tail, skipping the historical source and leaving the
agent state (in particular the historical counter) unchanged. -/
theorem claim_C2_repertoire_priority (O : SearchOracle B M)
    [DecidableEq M] (parseSan : B → String → Option M) (e : B → ℚ) (n : Nat)
    (A : AgentState) (b : B) :
    ((A.color = true → A.testOpeningMoves = []) →
      ∀ (h : A.magnusPlayed < A.magnusMoves.length) (mv : M),
        parseSan b (A.magnusMoves.get ⟨A.magnusPlayed, h⟩) = some mv →
        mv ∈ O.legalMoves b →
        selectMove O parseSan e n A b =
          (some mv, { A with magnusPlayed := A.magnusPlayed + 1 })) ∧
    ((A.color = true → A.testOpeningMoves = []) →
      ∀ h : A.magnusPlayed < A.magnusMoves.length,
        parseSan b (A.magnusMoves.get ⟨A.magnusPlayed, h⟩) = none →
        selectMove O parseSan e n A b = (searchFallback O e A.color n b, A)) ∧
    ((A.color = true → A.testOpeningMoves = []) →
      ∀ (h : A.magnusPlayed < A.magnusMoves.length) (mv : M),
        parseSan b (A.magnusMoves.get ⟨A.magnusPlayed, h⟩) = some mv →
        mv ∉ O.legalMoves b →
        selectMove O parseSan e n A b = (searchFallback O e A.color n b, A)) ∧
    ((A.color = true → A.testOpeningMoves = []) →
      A.magnusMoves.length ≤ A.magnusPlayed →
      selectMove O parseSan e n A b = (searchFallback O e A.color n b, A)) ∧
    (A.color = true → A.testOpeningMoves ≠ [] →
      (A.testOpeningMoves.length ≤ A.openingPlayed ∨
        (∃ h : A.openingPlayed < A.testOpeningMoves.length,
          parseSan b (A.testOpeningMoves.get ⟨A.openingPlayed, h⟩) = none ∨
          ∃ mv, parseSan b (A.testOpeningMoves.get ⟨A.openingPlayed, h⟩) =
              some mv ∧ mv ∉ O.legalMoves b)) →
      selectMove O parseSan e n A b = (searchFallback O e A.color n b, A)) := by
  have hbranch : ∀ hskip : A.color = true → A.testOpeningMoves = [],
      ¬ (A.color = true ∧ A.testOpeningMoves ≠ []) :=
    fun hskip hand => hand.2 (hskip hand.1)
  refine ⟨?_, ?_, ?_, ?_, ?_⟩
  · intro hskip h mv hparse hmem
    unfold selectMove
    rw [if_neg (hbranch hskip), dif_pos h, hparse]
    simp only [if_pos hmem]
  · intro hskip h hparse
    unfold selectMove
    rw [if_neg (hbranch hskip), dif_pos h, hparse]
  · intro hskip h mv hparse hnl
    unfold selectMove
    rw [if_neg (hbranch hskip), dif_pos h, hparse]
    simp only [if_neg hnl]
  · intro hskip hex
    unfold selectMove
    rw [if_neg (hbranch hskip), dif_neg (not_lt.2 hex)]
  · intro hc hne hfail
    unfold selectMove
    rw [if_pos ⟨hc, hne⟩]
    rcases hfail with hex | ⟨h, hpf⟩
    · rw [dif_neg (not_lt.2 hex)]
    · rw [dif_pos h]
      rcases hpf with hpf | ⟨mv, hpf, hnl⟩
      · rw [hpf]
      · rw [hpf]
        simp only [if_neg hnl]

/-- C8 (amended): when the book branches do not apply, the
iterative-deepening search produces no move, and the position has at least
one legal move, `select_move` falls back to the one-ply static scan and
returns the first move, in enumeration order, whose evaluation is strictly
highest; the agent state is unchanged. -/
theorem claim_C8_static_fallback (O : SearchOracle B M) [DecidableEq M]
    (parseSan : B → String → Option M) (e : B → ℚ) (n : Nat)
    (A : AgentState) (b : B)
    (hw : A.color = true → A.testOpeningMoves = [])
    (hm : A.magnusMoves.length ≤ A.magnusPlayed)
    (hs : searchLoop O e A.color n b 1 none 0 = none)
    (hne : O.legalMoves b ≠ []) :
    ∃ mv l1 l2, selectMove O parseSan e n A b = (some mv, A) ∧
      O.legalMoves b = l1 ++ mv :: l2 ∧
      (∀ x ∈ O.legalMoves b, sc (e (O.push b x)) ≤ sc (e (O.push b mv))) ∧
      (∀ x ∈ l1, sc (e (O.push b x)) < sc (e (O.push b mv))) := by
  have hsel : selectMove O parseSan e n A b =
      (fallbackScan O e (O.legalMoves b) b none ⊥, A) := by
    unfold selectMove
    rw [if_neg (fun hand => hand.2 (hw hand.1)), dif_neg (not_lt.2 hm)]
    unfold searchFallback
    rw [hs]
  rw [fallbackScan_eq_scanMax] at hsel
  rcases scanMax_result (fun m => sc (e (O.push b m))) (O.legalMoves b)
      none ⊥ with ⟨_, hle⟩ | ⟨l1, mv, l2, hsplit, hfst, _, _, h1, h2⟩
  · rcases hmoves : O.legalMoves b with _ | ⟨m, rest⟩
    · exact absurd hmoves hne
    · exact absurd (hle m (by rw [hmoves]; exact List.mem_cons_self m rest))
        (not_le.2 (bot_lt_sc _))
  · refine ⟨mv, l1, l2, ?_, hsplit, ?_, fun x hx => h1 x hx⟩
    · rw [hsel, hfst]
    · intro x hx
      rw [hsplit] at hx
      rcases List.mem_append.1 hx with hx | hx
      · exact (h1 x hx).le
      · rcases List.mem_cons.1 hx with hx | hx
        · rw [hx]
        · exact h2 x hx

section SelectorExamples

/-- Game for the C2 counterexample: from position `0` (the only position
with moves) move `true` leads to position `1` (evaluation 0) and move
`false` to position `2` (evaluation 1). -/
def gameC2 : GameDef (Fin 3) Bool where
  moves := fun p => if p = 0 then [true, false] else []
  next := fun p m => if p = 0 then (if m then 1 else 2) else p
  turn := fun p => p = 0
  over := fun _ => false

/-- Evaluation for the C2 counterexample. -/
def evalC2 : StackBoard (Fin 3) → ℚ := fun b =>
  if b.1 = 2 then 1 else 0

/-- SAN parser of the C2 counterexample: only the historical entry `d4`
parses, to the legal move `true`. -/
def parseC2 : StackBoard (Fin 3) → String → Option Bool := fun _ s =>
  if s = "d4" then some true else none

/-- A White agent whose scripted opening list is nonempty but exhausted,
and whose historical list still holds the parseable, legal entry `d4`. -/
def agentC2 : AgentState where
  color := true
  testOpeningMoves := ["e4"]
  magnusMoves := ["d4"]
  openingPlayed := 1
  magnusPlayed := 0

/-- Counterexample to C2 as stated: the opening list is exhausted and the
historical list is not, yet the selector does not try the historical
source: it runs the search-and-fallback tail and returns move `false`,
leaving the historical counter at 0, although the historical entry `d4`
parses to the legal move `true`. -/
theorem claim_C2_counterexample :
    selectMove gameC2.oracle parseC2 evalC2 1 agentC2 ((0 : Fin 3), []) =
      (some false, agentC2) ∧
    agentC2.magnusPlayed = 0 ∧
    parseC2 ((0 : Fin 3), []) "d4" = some true ∧
    true ∈ gameC2.oracle.legalMoves ((0 : Fin 3), []) ∧
    (some false : Option Bool) ≠ some true := by
  refine ⟨?_, rfl, by decide, by decide, by decide⟩
  have h1 : abSearch gameC2.oracle evalC2 agentC2.color (some 1) 1
      (((0 : Fin 3), []) : StackBoard (Fin 3)) ⊥ ⊤ (0 + 1) =
      ((none, sc 0), (((0 : Fin 3), []) : StackBoard (Fin 3)), 2) := by decide
  unfold selectMove
  rw [if_pos (show agentC2.color = true ∧ agentC2.testOpeningMoves ≠ [] from
    ⟨rfl, by decide⟩)]
  rw [dif_neg
    (by decide : ¬ agentC2.openingPlayed < agentC2.testOpeningMoves.length)]
  unfold searchFallback
  rw [searchLoop, dif_neg (by decide : ¬ (1 : Nat) ≤ 0), h1]
  simp only [Option.isSome_none, Bool.false_eq_true, if_false]
  rw [searchLoop_fired gameC2.oracle evalC2 agentC2.color 1 _ 2 none 2
    (by decide)]
  rfl

/-- A Black agent (the opening branch does not apply) whose historical
list still holds the parseable, legal entry `d4`. -/
def agentC2m : AgentState where
  color := false
  testOpeningMoves := []
  magnusMoves := ["d4"]
  openingPlayed := 0
  magnusPlayed := 0

/-- Witness for the amended C2, exercising both halves: the Black agent
consumes the historical move `d4` (parse, validate, counter advanced,
no search), and the White agent with a nonempty exhausted opening list
goes straight to the search-and-fallback tail with its state untouched. -/
theorem claim_C2_witness :
    agentC2m.color ≠ true ∧
    agentC2m.magnusPlayed < agentC2m.magnusMoves.length ∧
    parseC2 ((0 : Fin 3), []) "d4" = some true ∧
    true ∈ gameC2.oracle.legalMoves ((0 : Fin 3), []) ∧
    selectMove gameC2.oracle parseC2 evalC2 1 agentC2m ((0 : Fin 3), []) =
      (some true, { agentC2m with magnusPlayed := agentC2m.magnusPlayed + 1 }) ∧
    agentC2.color = true ∧ agentC2.testOpeningMoves ≠ [] ∧
    agentC2.testOpeningMoves.length ≤ agentC2.openingPlayed ∧
    selectMove gameC2.oracle parseC2 evalC2 1 agentC2 ((0 : Fin 3), []) =
      (searchFallback gameC2.oracle evalC2 agentC2.color 1 ((0 : Fin 3), []),
        agentC2) :=
  ⟨by decide, by decide, by decide, by decide,
    (claim_C2_repertoire_priority gameC2.oracle parseC2 evalC2 1 agentC2m
      ((0 : Fin 3), [])).1 (by decide) (by decide) true (by decide)
      (by decide),
    rfl, by decide, by decide,
    (claim_C2_repertoire_priority gameC2.oracle parseC2 evalC2 1 agentC2
      ((0 : Fin 3), [])).2.2.2.2 rfl (by decide) (Or.inl (by decide))⟩

/-- Game for the C8 counterexample: a single position with no legal moves
(the game is over there). -/
def gameC8 : GameDef Unit Unit where
  moves := fun _ => []
  next := fun p _ => p
  turn := fun _ => true
  over := fun _ => true

/-- An agent for which neither book branch applies. -/
def agentC8 : AgentState where
  color := false
  testOpeningMoves := []
  magnusMoves := []
  openingPlayed := 0
  magnusPlayed := 0

/-- Counterexample to C8 as stated: with zero legal moves (and a time
budget under which the search yields nothing), `select_move` returns the
empty result `none` to the caller: the fallback scan of an empty move list
produces no move. -/
theorem claim_C8_counterexample :
    selectMove gameC8.oracle (fun _ _ => none) (fun _ => (0 : ℚ)) 0 agentC8
      (((), []) : StackBoard Unit) = (none, agentC8) ∧
    gameC8.oracle.legalMoves (((), []) : StackBoard Unit) = [] := by
  refine ⟨?_, rfl⟩
  unfold selectMove
  rw [if_neg (by decide :
    ¬ (agentC8.color = true ∧ agentC8.testOpeningMoves ≠ []))]
  rw [dif_neg
    (by decide : ¬ agentC8.magnusPlayed < agentC8.magnusMoves.length)]
  unfold searchFallback
  rw [searchLoop_fired gameC8.oracle _ agentC8.color 0 _ 1 none 0 (le_refl 0)]
  rfl

/-- Witness for the amended C8 at the cycle game with a zero time budget:
the search yields nothing and the fallback returns the strictly best (and
only) legal move. -/
theorem claim_C8_witness :
    (agentC8.color = true → agentC8.testOpeningMoves = []) ∧
    agentC8.magnusMoves.length ≤ agentC8.magnusPlayed ∧
    searchLoop cycGame.oracle (fun _ => (0 : ℚ)) agentC8.color 0 (true, [])
      1 none 0 = none ∧
    cycGame.oracle.legalMoves (true, []) ≠ [] ∧
    (∃ mv l1 l2,
      selectMove cycGame.oracle (fun _ _ => none) (fun _ => (0 : ℚ)) 0
        agentC8 (true, []) = (some mv, agentC8) ∧
      cycGame.oracle.legalMoves (true, []) = l1 ++ mv :: l2 ∧
      (∀ x ∈ cycGame.oracle.legalMoves (true, []),
        sc ((fun _ => (0 : ℚ)) (cycGame.oracle.push (true, []) x)) ≤
        sc ((fun _ => (0 : ℚ)) (cycGame.oracle.push (true, []) mv))) ∧
      (∀ x ∈ l1,
        sc ((fun _ => (0 : ℚ)) (cycGame.oracle.push (true, []) x)) <
        sc ((fun _ => (0 : ℚ)) (cycGame.oracle.push (true, []) mv)))) :=
  ⟨by decide, by decide,
    searchLoop_fired cycGame.oracle _ agentC8.color 0 _ 1 none 0 (le_refl 0),
    by simp [cycGame, GameDef.oracle],
    claim_C8_static_fallback cycGame.oracle (fun _ _ => none)
      (fun _ => (0 : ℚ)) 0 agentC8 (true, []) (by decide) (by decide)
      (searchLoop_fired cycGame.oracle _ agentC8.color 0 _ 1 none 0
        (le_refl 0))
      (by simp [cycGame, GameDef.oracle])⟩

end SelectorExamples

end Selector

end Search

section Evaluator

/-- Piece kinds of the `chess` library. -/
inductive PieceType : Type
  | pawn
  | knight
  | bishop
  | rook
  | queen
  | king
deriving DecidableEq

/-- The `piece_values` table of `evaluate` (lines 167-174). -/
def pieceValue : PieceType → ℚ
  | .pawn => 1
  | .knight => 3
  | .bishop => 3
  | .rook => 5
  | .queen => 9
  | .king => 0

/-- Iteration order of `piece_values.items()` (dict insertion order). -/
def pieceKinds : List PieceType :=
  [.pawn, .knight, .bishop, .rook, .queen, .king]

/-- Snapshot of the external `chess.Board` as far as `evaluate` queries it.
Squares are 0-63 (`square = rank * 8 + file`), colors are booleans with
`true = WHITE`.  `legalMovesFor` gives the legal-move list the move
generator would produce for either side to move, so that the evaluator's
temporary `board.turn` flip is observable.  `lastMove` is
`board.peek()` when `board.move_stack` is nonempty. -/
structure EvalBoard (M : Type) : Type where
  turn : Bool
  pieceSquares : Bool → PieceType → List Nat
  pieceAt : Nat → Option (Bool × PieceType)
  attackers : Bool → Nat → List Nat
  legalMovesFor : Bool → List M
  fromSquare : M → Nat
  lastMove : Option M
  isCapture : M → Bool
  isCheckmate : Bool
  isStalemate : Bool
  isInsufficientMaterial : Bool
  isCheck : Bool
  kingSq : Bool → Nat

variable {M : Type}

def squareRank (sq : Nat) : Nat := sq / 8

def squareFile (sq : Nat) : Nat := sq % 8

def mkSquare (f r : Nat) : Nat := r * 8 + f

/-- `board.is_attacked_by(color, sq)`: the attacker set is nonempty. -/
def isAttackedBy (b : EvalBoard M) (color : Bool) (sq : Nat) : Bool :=
  !(b.attackers color sq).isEmpty

/-- `board.piece_map().items()` flattened from the piece lists (order is
irrelevant: it is only summed over). -/
def pieceMapList (b : EvalBoard M) : List (Nat × Bool × PieceType) :=
  [true, false].flatMap fun pc =>
    pieceKinds.flatMap fun t =>
      (b.pieceSquares pc t).map fun sq => (sq, pc, t)

/-- Material count of `evaluate` (lines 177-180), also recomputed as
`material_diff` in the capture-penalty block (lines 323-326). -/
def materialScore (c : Bool) (b : EvalBoard M) : ℚ :=
  (pieceKinds.map fun t =>
    ((b.pieceSquares c t).length : ℚ) * pieceValue t -
    ((b.pieceSquares (!c) t).length : ℚ) * pieceValue t).sum

/-- `is_passed_pawn` (lines 183-201): no opposing pawn on the own or an
adjacent file strictly ahead (toward promotion).  `List.range 8` with the
filters reproduces `range(rank+1, 8)` / `range(rank-1, -1, -1)` and
`max(0, file-1) .. min(7, file+1)` (ℕ subtraction is the `max(0, ·)`). -/
def isPassedPawn (b : EvalBoard M) (sq : Nat) (color : Bool) : Bool :=
  let rank := squareRank sq
  let file := squareFile sq
  let files := (List.range 8).filter fun f => file - 1 ≤ f ∧ f ≤ file + 1
  let ranks := (List.range 8).filter fun r =>
    if color then rank < r else r < rank
  ranks.all fun r => files.all fun f =>
    match b.pieceAt (mkSquare f r) with
    | some (pc, pt) => !(pt = PieceType.pawn ∧ pc ≠ color : Bool)
    | none => true

/-- `open_road` (lines 203-217): no piece of either side strictly ahead on
the pawn's own file. -/
def openRoad (b : EvalBoard M) (sq : Nat) (color : Bool) : Bool :=
  let rank := squareRank sq
  let file := squareFile sq
  let ranks := (List.range 8).filter fun r =>
    if color then rank < r else r < rank
  ranks.all fun r => (b.pieceAt (mkSquare file r)).isNone

/-- Per-pawn bonus for the perspective's passed pawns (lines 220-226). -/
def ownPassedBonus (c : Bool) (b : EvalBoard M) (sq : Nat) : ℚ :=
  if isPassedPawn b sq c then
    (if c then (squareRank sq : ℚ) * (1 / 2)
      else ((7 : ℚ) - squareRank sq) * (1 / 2)) +
    (if openRoad b sq c then 2 else 0)
  else 0

/-- Per-pawn penalty magnitude for the opponent's passed pawns
(lines 229-235). -/
def oppPassedBonus (c : Bool) (b : EvalBoard M) (sq : Nat) : ℚ :=
  if isPassedPawn b sq (!c) then
    (if c then ((7 : ℚ) - squareRank sq) * (1 / 2)
      else (squareRank sq : ℚ) * (1 / 2)) +
    (if openRoad b sq (!c) then 2 else 0)
  else 0

/-- Passed-pawn contribution of `evaluate` (lines 219-235). -/
def passedPawnTerm (c : Bool) (b : EvalBoard M) : ℚ :=
  ((b.pieceSquares c .pawn).map (ownPassedBonus c b)).sum -
  ((b.pieceSquares (!c) .pawn).map (oppPassedBonus c b)).sum

/-- Threats and counter-threats bonus (lines 237-249). -/
def counterThreatTerm (c : Bool) (b : EvalBoard M) : ℚ :=
  ((pieceMapList b).map fun x =>
    if x.2.1 = c then
      if !(b.attackers (!c) x.1).isEmpty then
        ((pieceMapList b).map fun y =>
          if y.2.1 ≠ c ∧ isAttackedBy b c y.1 then
            if pieceValue x.2.2 < pieceValue y.2.2 then
              (pieceValue y.2.2 - pieceValue x.2.2) * (1 / 5)
            else 0
          else 0).sum
      else 0
    else 0).sum

/-- Advanced piece-safety penalty (lines 251-276). -/
def safetyTerm (c : Bool) (b : EvalBoard M) : ℚ :=
  ([c, !c].map fun color =>
    let sign : ℚ := if color = c then 1 else -1
    ([PieceType.pawn, .knight, .bishop, .rook, .queen].map fun t =>
      ((b.pieceSquares color t).map fun sq =>
        let atk := (b.attackers (!color) sq).length
        let dfd := (b.attackers color sq).length
        let margin : ℚ := (dfd : ℚ) - (atk : ℚ)
        (if margin < 0 then -(sign * (|margin| * pieceValue t * (1 / 2)))
          else 0) +
        (if 2 ≤ atk ∧ dfd = 0 then -(sign * (pieceValue t * (1 / 2)))
          else 0)).sum).sum).sum

/-- Capture-opportunity bonus (lines 278-286). -/
def captureOppTerm (c : Bool) (b : EvalBoard M) : ℚ :=
  (pieceKinds.map fun t =>
    if t = PieceType.king then 0
    else
      ((b.pieceSquares (!c) t).map fun sq =>
        if (b.attackers (!c) sq).length < (b.attackers c sq).length then
          pieceValue t * (3 / 10)
        else 0).sum).sum

/-- `mobility` (lines 289-294), with the temporary side-to-move flip and
its restoration made explicit: the result carries the board the helper
leaves behind. -/
def mobilityT (b : EvalBoard M) (color : Bool) : Nat × EvalBoard M :=
  let originalTurn := b.turn
  let b1 := { b with turn := color }
  let movesCount := (b1.legalMovesFor b1.turn).length
  let b2 := { b1 with turn := originalTurn }
  (movesCount, b2)

/-- Move count produced by `mobility`. -/
def mobility (b : EvalBoard M) (color : Bool) : Nat := (mobilityT b color).1

/-- Mobility bonus of `evaluate` (lines 296-297); `mobility_factor` is
0.05. -/
def mobilityTerm (c : Bool) (b : EvalBoard M) : ℚ :=
  (1 / 20) * ((mobility b c : ℚ) - (mobility b (!c) : ℚ))

/-- `central_squares = [D4, D5, E4, E5]` (line 300). -/
def centralSquares : List Nat := [27, 35, 28, 36]

/-- Central-control bonus (lines 299-306). -/
def centralTerm (c : Bool) (b : EvalBoard M) : ℚ :=
  (centralSquares.map fun sq =>
    (if isAttackedBy b c sq then (1 / 5 : ℚ) else 0) +
    (if isAttackedBy b (!c) sq then -(1 / 5 : ℚ) else 0)).sum

/-- Piece-coordination bonus (lines 308-316). -/
def coordinationTerm (c : Bool) (b : EvalBoard M) : ℚ :=
  ((pieceMapList b).map fun x =>
    if x.2.1 = c then
      if 1 < (b.attackers c x.1).length then
        (((b.attackers c x.1).length : ℚ) - 1) * (1 / 5)
      else 0
    else 0).sum

/-- Non-positive-capture penalty (lines 318-328).  The guard is
`board.turn != self.color and board.is_capture(last_move)`: since the side
that made the last move is the one *not* to move now, `turn != color`
means the last move was made by the perspective side itself. -/
def capturePenaltyTerm (c : Bool) (b : EvalBoard M) : ℚ :=
  match b.lastMove with
  | none => 0
  | some mv =>
    if b.turn ≠ c ∧ b.isCapture mv then
      if materialScore c b < 1 then -1 else 0
    else 0

/-- `pos_metric` (lines 330-342): mobility term, central metric and
coordination bonus recomputed. -/
def posMetric (c : Bool) (b : EvalBoard M) : ℚ :=
  (1 / 20) * ((mobility b c : ℚ) - (mobility b (!c) : ℚ)) +
  (centralSquares.map fun sq =>
    (if isAttackedBy b c sq then (1 / 5 : ℚ) else 0) +
    (if isAttackedBy b (!c) sq then -(1 / 5 : ℚ) else 0)).sum +
  coordinationTerm c b

/-- Positional-improvement penalty (lines 343-345). -/
def positionalPenaltyTerm (c : Bool) (b : EvalBoard M) : ℚ :=
  if posMetric c b < 1 / 2 then -2 else 0

/-- Dominant-position capture penalty (lines 347-354). -/
def dominantPenaltyTerm (c : Bool) (b : EvalBoard M) : ℚ :=
  if 3 < posMetric c b then
    match b.lastMove with
    | none => 0
    | some mv => if b.isCapture mv then -2 else 0
  else 0

/-- Forced-mate (king-confinement) heuristic (lines 356-373).  The guard is
only `len(board.pieces(KING, not self.color)) == 1`; `enemy_king_moves`
counts the current side-to-move's legal moves leaving from the enemy king
square. -/
def forcedMateTerm (c : Bool) (b : EvalBoard M) : ℚ :=
  if (b.pieceSquares (!c) PieceType.king).length = 1 then
    let enemyKingSq := b.kingSq (!c)
    let enemyKingMoves :=
      ((b.legalMovesFor b.turn).filter fun m =>
        b.fromSquare m = enemyKingSq).length
    ((10 : ℚ) - (enemyKingMoves : ℚ)) * 50 +
    (if squareFile enemyKingSq = 0 ∨ squareFile enemyKingSq = 7 ∨
        squareRank enemyKingSq = 0 ∨ squareRank enemyKingSq = 7 then 100
      else 0) +
    (if b.isCheck then (if b.turn = c then 20 else -20) else 0)
  else 0

/-- `ChessAgent.evaluate` (lines 144-374): terminal shortcut, then the sum
of the additive blocks in source order. -/
def evaluate (c : Bool) (b : EvalBoard M) (depth : Nat) : ℚ :=
  if b.isCheckmate then
    (if b.turn ≠ c then 10000 - (depth : ℚ) else -10000 + (depth : ℚ))
  else if b.isStalemate ∨ b.isInsufficientMaterial then 0
  else
    materialScore c b + passedPawnTerm c b + counterThreatTerm c b +
    safetyTerm c b + captureOppTerm c b + mobilityTerm c b +
    centralTerm c b + coordinationTerm c b + capturePenaltyTerm c b +
    positionalPenaltyTerm c b + dominantPenaltyTerm c b + forcedMateTerm c b

/-- C6: on every exit path of `alpha_beta_search` (normal return after all
children, beta/alpha cutoff break, and depth-0 / terminal / deadline leaf
return), the position after the call is identical by full state comparison
to the position before the call — every push is matched by a pop — and the
evaluator's temporary side-to-move flip in `mobility` is always restored. -/
theorem claim_C6_position_restored :
    (∀ (B M : Type) (O : SearchOracle B M) (e : B → ℚ) (player : Bool)
      (N : Option Nat) (d : Nat) (b : B) (alpha beta : Score) (k : Nat),
      (abSearch O e player N d b alpha beta k).2.1 = b) ∧
    (∀ (M : Type) (b : EvalBoard M) (color : Bool),
      (mobilityT b color).2 = b) :=
  ⟨fun _ _ O e player N d b alpha beta k =>
    abSearch_board O e player N d b alpha beta k,
    fun _ _ _ => rfl⟩

section EvalExamples

/-- Concrete move representation for the evaluation examples: a
(from-square, to-square) pair. -/
abbrev EMove : Type := Nat × Nat

/-- Position of the C3 evidence: White Ke1 (square 4); Black Ke8
(square 60) and Rb8 (square 57); White to move; no move played yet.  The
attack tables and legal-move lists are the true chess ones for this
position: the white king attacks d1, f1, d2, e2, f2; the black king
attacks d7, e7, f7, d8, f8; the black rook attacks a8, c8, d8 and
b7 … b1. -/
def evalBoardC3 : EvalBoard EMove where
  turn := true
  pieceSquares := fun pc t =>
    match pc, t with
    | true, .king => [4]
    | false, .king => [60]
    | false, .rook => [57]
    | _, _ => []
  pieceAt := fun sq =>
    if sq = 4 then some (true, .king)
    else if sq = 60 then some (false, .king)
    else if sq = 57 then some (false, .rook)
    else none
  attackers := fun pc sq =>
    if pc then (if sq ∈ [3, 5, 11, 12, 13] then [4] else [])
    else
      (if sq ∈ [51, 52, 53, 59, 61] then [60] else []) ++
      (if sq ∈ [56, 58, 59, 49, 41, 33, 25, 17, 9, 1] then [57] else [])
  legalMovesFor := fun pc =>
    if pc then [(4, 3), (4, 5), (4, 11), (4, 12), (4, 13)]
    else
      [(60, 51), (60, 52), (60, 53), (60, 59), (60, 61), (57, 56), (57, 58),
        (57, 59), (57, 49), (57, 41), (57, 33), (57, 25), (57, 17), (57, 9),
        (57, 1)]
  fromSquare := Prod.fst
  lastMove := none
  isCapture := fun _ => false
  isCheckmate := false
  isStalemate := false
  isInsufficientMaterial := false
  isCheck := false
  kingSq := fun pc => if pc then 4 else 60

/-- C3 evidence (code bug): in a position in which the opponent still owns
a rook besides the king, the king-confinement block contributes 600 (500
mobility-confinement, since no current-turn legal move leaves from e8,
plus 100 for the back-rank edge), and this flows into the returned score
`evaluate = -5 - 1/2 - 2 + 600`; the guard
`len(board.pieces(KING, not color)) == 1` holds in every position with an
opponent king, not only for a lone king. -/
theorem claim_C3_confinement_fires_without_lone_king :
    evalBoardC3.pieceSquares false PieceType.rook = [57] ∧
    forcedMateTerm true evalBoardC3 = 600 ∧
    evaluate true evalBoardC3 0 = 1185 / 2 := by
  refine ⟨rfl, ?_, ?_⟩
  · norm_num [forcedMateTerm, evalBoardC3, squareFile, squareRank]
  · norm_num [evaluate, evalBoardC3, materialScore, passedPawnTerm,
      counterThreatTerm, safetyTerm, captureOppTerm, mobilityTerm,
      centralTerm, coordinationTerm, capturePenaltyTerm,
      positionalPenaltyTerm, dominantPenaltyTerm, forcedMateTerm,
      pieceMapList, pieceKinds, pieceValue, mobility, mobilityT,
      centralSquares, isAttackedBy, posMetric, squareFile, squareRank]

/-- Position of the C4 counterexample: White Ke1 (4); Black Ke8 (60) and
Rb2 (9) — Black has just captured a pawn on b2 with `...Rxb2`
(`lastMove = b7-b2`), so it is now White's turn.  Attack tables: the white
king attacks d1, f1, d2, e2, f2; the black king attacks d7, e7, f7, d8,
f8; the black rook on b2 attacks b1, b3 … b8 and a2, c2 … h2. -/
def evalBoardC4 : EvalBoard EMove where
  turn := true
  pieceSquares := fun pc t =>
    match pc, t with
    | true, .king => [4]
    | false, .king => [60]
    | false, .rook => [9]
    | _, _ => []
  pieceAt := fun sq =>
    if sq = 4 then some (true, .king)
    else if sq = 60 then some (false, .king)
    else if sq = 9 then some (false, .rook)
    else none
  attackers := fun pc sq =>
    if pc then (if sq ∈ [3, 5, 11, 12, 13] then [4] else [])
    else
      (if sq ∈ [51, 52, 53, 59, 61] then [60] else []) ++
      (if sq ∈ [1, 17, 25, 33, 41, 49, 57, 8, 10, 11, 12, 13, 14, 15] then
        [9] else [])
  legalMovesFor := fun pc =>
    if pc then [(4, 3), (4, 5)]
    else
      [(60, 51), (60, 52), (60, 53), (60, 59), (60, 61), (9, 1), (9, 17),
        (9, 25), (9, 33), (9, 41), (9, 49), (9, 57), (9, 8), (9, 10),
        (9, 11), (9, 12), (9, 13), (9, 14), (9, 15)]
  fromSquare := Prod.fst
  lastMove := some (49, 9)
  isCapture := fun mv => decide (mv = (49, 9))
  isCheckmate := false
  isStalemate := false
  isInsufficientMaterial := false
  isCheck := false
  kingSq := fun pc => if pc then 4 else 60

/-- Counterexample to C4 as stated: the most recently applied move was a
capture made by the opponent of the perspective side (Black captured on
b2, so it is White's turn: `turn = color`), the perspective's net material
edge is `-5 < 1`, and yet the penalty contributes `0`, not `-1.0` — the
code's guard `board.turn != self.color` restricts the penalty to captures
made by the perspective side itself. -/
theorem claim_C4_counterexample :
    evalBoardC4.lastMove = some (49, 9) ∧
    evalBoardC4.isCapture (49, 9) = true ∧
    evalBoardC4.turn = true ∧
    materialScore true evalBoardC4 < 1 ∧
    capturePenaltyTerm true evalBoardC4 = 0 := by
  refine ⟨rfl, by decide, rfl, ?_, ?_⟩
  · norm_num [materialScore, evalBoardC4, pieceKinds, pieceValue]
  · norm_num [capturePenaltyTerm, evalBoardC4]

/-- C4 (amended): for every non-terminal position whose most recently
applied move was a capture made by the perspective side itself
(`board.turn != self.color` after the move), if the perspective's net
material edge — computed exactly as in the material-count step — is less
than 1, the non-positive-capture block of `evaluate` contributes exactly
`-1.0`. -/
theorem claim_C4_self_capture_penalty {M : Type} (c : Bool)
    (b : EvalBoard M) (mv : M) (h1 : b.lastMove = some mv)
    (h2 : b.isCapture mv = true) (h3 : b.turn ≠ c)
    (h4 : materialScore c b < 1) :
    capturePenaltyTerm c b = -1 := by
  unfold capturePenaltyTerm
  rw [h1]
  simp only [if_pos (⟨h3, h2⟩ : b.turn ≠ c ∧ b.isCapture mv = true),
    if_pos h4]

/-- Position of the C4 witness: White Kd5 (35) has just captured a pawn on
d5 (`lastMove = d4-d5`), Black to move with Ke8 (60) and Rh8 (63). -/
def evalBoardC4w : EvalBoard EMove where
  turn := false
  pieceSquares := fun pc t =>
    match pc, t with
    | true, .king => [35]
    | false, .king => [60]
    | false, .rook => [63]
    | _, _ => []
  pieceAt := fun sq =>
    if sq = 35 then some (true, .king)
    else if sq = 60 then some (false, .king)
    else if sq = 63 then some (false, .rook)
    else none
  attackers := fun pc sq =>
    if pc then
      (if sq ∈ [26, 27, 28, 34, 36, 42, 43, 44] then [35] else [])
    else
      (if sq ∈ [51, 52, 53, 59, 61] then [60] else []) ++
      (if sq ∈ [62, 61, 55, 47, 39, 31, 23, 15, 7] then [63] else [])
  legalMovesFor := fun pc =>
    if pc then
      [(35, 26), (35, 27), (35, 28), (35, 34), (35, 36), (35, 42), (35, 43),
        (35, 44)]
    else
      [(60, 51), (60, 52), (60, 53), (60, 59), (60, 61), (63, 62), (63, 61),
        (63, 55), (63, 47), (63, 39), (63, 31), (63, 23), (63, 15), (63, 7)]
  fromSquare := Prod.fst
  lastMove := some (27, 35)
  isCapture := fun mv => decide (mv = (27, 35))
  isCheckmate := false
  isStalemate := false
  isInsufficientMaterial := false
  isCheck := false
  kingSq := fun pc => if pc then 35 else 60

/-- Witness for the amended C4: White has just made a capture that leaves
a material edge of `-5 < 1`, so the block contributes `-1`. -/
theorem claim_C4_witness :
    evalBoardC4w.lastMove = some (27, 35) ∧
    evalBoardC4w.isCapture (27, 35) = true ∧
    evalBoardC4w.turn ≠ true ∧
    materialScore true evalBoardC4w < 1 ∧
    capturePenaltyTerm true evalBoardC4w = -1 :=
  ⟨rfl, by decide, by decide,
    by norm_num [materialScore, evalBoardC4w, pieceKinds, pieceValue],
    claim_C4_self_capture_penalty true evalBoardC4w (27, 35) rfl (by decide)
      (by decide)
      (by norm_num [materialScore, evalBoardC4w, pieceKinds, pieceValue])⟩

/-- Position of the C7 counterexample: White Ke1 (4) and an unmoved pawn
on a2 (square 8, rank index 1); Black Ke8 (60); no black pawns, nothing on
the a-file ahead of the pawn; White to move. -/
def evalBoardC7 : EvalBoard EMove where
  turn := true
  pieceSquares := fun pc t =>
    match pc, t with
    | true, .king => [4]
    | true, .pawn => [8]
    | false, .king => [60]
    | _, _ => []
  pieceAt := fun sq =>
    if sq = 4 then some (true, .king)
    else if sq = 8 then some (true, .pawn)
    else if sq = 60 then some (false, .king)
    else none
  attackers := fun pc sq =>
    if pc then
      (if sq ∈ [3, 5, 11, 12, 13] then [4] else []) ++
      (if sq = 17 then [8] else [])
    else (if sq ∈ [51, 52, 53, 59, 61] then [60] else [])
  legalMovesFor := fun pc =>
    if pc then [(4, 3), (4, 5), (4, 11), (4, 12), (4, 13), (8, 16), (8, 24)]
    else [(60, 51), (60, 52), (60, 53), (60, 59), (60, 61)]
  fromSquare := Prod.fst
  lastMove := none
  isCapture := fun _ => false
  isCheckmate := false
  isStalemate := false
  isInsufficientMaterial := false
  isCheck := false
  kingSq := fun pc => if pc then 4 else 60

/-- Counterexample to C7 as stated: the white pawn on a2 is passed with an
open road but has advanced 0 ranks, so the claim predicts a contribution
of `0.5 × 0 + 2.0 = 2.0`; the code computes `rank × 0.5 + 2.0 = 2.5`
(`rank` is the 0-based rank index, which exceeds the ranks advanced
by one). -/
theorem claim_C7_counterexample :
    evalBoardC7.pieceSquares true PieceType.pawn = [8] ∧
    isPassedPawn evalBoardC7 8 true = true ∧
    openRoad evalBoardC7 8 true = true ∧
    squareRank 8 = 1 ∧
    passedPawnTerm true evalBoardC7 = 5 / 2 ∧
    (5 / 2 : ℚ) ≠ (1 / 2) * 0 + 2 := by
  refine ⟨rfl, by decide, by decide, rfl, ?_, by norm_num⟩
  have hp : isPassedPawn evalBoardC7 8 true = true := by decide
  have ho : openRoad evalBoardC7 8 true = true := by decide
  norm_num [passedPawnTerm, ownPassedBonus, oppPassedBonus, hp, ho,
    squareRank,
    show evalBoardC7.pieceSquares true .pawn = [8] from rfl,
    show evalBoardC7.pieceSquares false .pawn = [] from rfl]

/-- C7 (amended): for every perspective pawn that is passed, `evaluate`
adds `0.5 × (ranks advanced + 1)` — equivalently 0.5 times the pawn's
0-based rank distance from the perspective's back rank — plus the extra
2.0 open-road bonus when no piece of either side occupies any square
directly ahead on its own file; and each opponent passed pawn contributes
the mirrored penalty, computed with the opponent's advancement direction,
through the same per-pawn bonus with the colors swapped. -/
theorem claim_C7_passed_pawn_amended {M : Type} (c : Bool)
    (b : EvalBoard M) (sq : Nat) (hp : isPassedPawn b sq c = true) :
    ownPassedBonus c b sq =
      (1 / 2) *
        ((if c = true then (squareRank sq : ℚ) - 1
          else 6 - (squareRank sq : ℚ)) + 1) +
      (if openRoad b sq c then 2 else 0) ∧
    oppPassedBonus (!c) b sq = ownPassedBonus c b sq := by
  constructor
  · unfold ownPassedBonus
    rw [if_pos hp]
    cases c
    · simp only [Bool.false_eq_true, if_false]
      ring_nf
    · simp only [if_true]
      ring_nf
  · unfold oppPassedBonus ownPassedBonus
    rw [Bool.not_not]
    cases c
    · simp only [Bool.not_false, Bool.false_eq_true, if_false, if_true]
    · simp only [Bool.not_true, Bool.false_eq_true, if_false, if_true]

/-- Witness for the amended C7 at the a2 pawn of the C7 position:
`0.5 × (0 + 1) + 2.0 = 2.5`. -/
theorem claim_C7_witness :
    isPassedPawn evalBoardC7 8 true = true ∧
    ownPassedBonus true evalBoardC7 8 =
      (1 / 2) *
        ((if true = true then (squareRank 8 : ℚ) - 1
          else 6 - (squareRank 8 : ℚ)) + 1) +
      (if openRoad evalBoardC7 8 true then 2 else 0) ∧
    oppPassedBonus (!true) evalBoardC7 8 = ownPassedBonus true evalBoardC7 8 :=
  ⟨by decide,
    (claim_C7_passed_pawn_amended true evalBoardC7 8 (by decide)).1,
    (claim_C7_passed_pawn_amended true evalBoardC7 8 (by decide)).2⟩

end EvalExamples

end Evaluator

end Chessbot
